import Mathlib

/-!
Shallow embedding of the achievement subsystem of `src/map/achievement.cpp`
(rAthena map server), together with proofs about it.

Machine integers are modelled as `Nat` (scores, objective counters and
timestamps are non-negative in the scenarios of interest); values that the
C code returns as `int` pairs (level progress) are modelled as `Int`.
External collaborators (the script-engine guard evaluation, the
inter-server reward authority, the client notification sink and the
`battle_config.feature_achievement` switch) are modelled as pure oracles
carried in an `Env` record.  The mutual recursion between
`achievement_update_achievement`, `achievement_level`,
`achievement_check_groups` and `achievement_update_objective` is modelled
with an explicit fuel parameter; `none` means the fuel ran out (the real
recursion terminates, so properties proved for every fuel cover the C
behaviour).  Creation of player records is additionally logged in a trace
`List (Nat × AchievementData)` carrying the state at the moment of each
creation, so that dependency-gating can be stated about that exact moment.
-/

/-- MAX_ACHIEVEMENT_OBJECTIVES from the headers: each achievement has up to
10 objective slots. -/
def MAX_ACHIEVEMENT_OBJECTIVES : Nat := 10

/-- One objective slot of an achievement definition (`struct
achievement_target`): required count and, for battle/taming groups, the
required monster id (0 when unused). -/
structure AchTarget where
  count : Nat
  mob : Nat
deriving DecidableEq

/-- The achievement groups (`enum e_achievement_group`) that appear in
`achievement.cpp`.  `AG_NONE`/`AG_MAX` are bounds of the C enum and are not
constructors: any value of this type is a proper group, so the bounds check
`group <= AG_NONE || group >= AG_MAX` of the source is vacuously passed. -/
inductive AchGroup
  | AG_ADD_FRIEND
  | AG_ADVENTURE
  | AG_BABY
  | AG_BATTLE
  | AG_CHAT
  | AG_CHAT_COUNT
  | AG_CHAT_CREATE
  | AG_CHAT_DYING
  | AG_GET_ITEM
  | AG_GET_ZENY
  | AG_GOAL_ACHIEVE
  | AG_GOAL_LEVEL
  | AG_GOAL_STATUS
  | AG_JOB_CHANGE
  | AG_MARRY
  | AG_PARTY
  | AG_REFINE_FAIL
  | AG_REFINE_SUCCESS
  | AG_SPEND_ZENY
  | AG_TAMING
deriving DecidableEq

/-- An immutable catalog entry (`struct s_achievement_db`).  The guard
condition script is an opaque external capability; only its presence is
recorded here, its evaluation is an oracle in `Env`.  `targets` is the
`std::map<uint16, achievement_target>`: an association list keyed by slot
index. -/
structure AchievementDef where
  achievement_id : Nat
  group : AchGroup
  targets : List (Nat × AchTarget)
  hasCondition : Bool
  dependent_ids : List Nat
  mapindex : Int
  score : Nat
  rewardTitleId : Nat
  hasRewardScript : Bool
deriving DecidableEq

/-- A player's progress record (`struct achievement`): per-slot counters
(list of length `MAX_ACHIEVEMENT_OBJECTIVES`), completion timestamp
(0 = incomplete), reward-claimed timestamp (0 = unclaimed) and the score
copied from the definition at creation time. -/
structure Achievement where
  achievement_id : Nat
  count : List Nat
  completed : Nat
  rewarded : Nat
  score : Nat
deriving DecidableEq

instance : Inhabited Achievement :=
  ⟨⟨0, List.replicate MAX_ACHIEVEMENT_OBJECTIVES 0, 0, 0, 0⟩⟩

/-- A player's progress store (`sd->achievement_data`): the ordered record
array (its length plays the role of the `count` field, which the C code
keeps equal to the allocation size), the boundary `incompleteCount`, the
cached `total_score` and `level`, and the dirty flag `save`. -/
structure AchievementData where
  achievements : List Achievement
  incompleteCount : Nat
  total_score : Nat
  level : Nat
  save : Bool
deriving DecidableEq

/-- A fresh player: no records, empty caches. -/
def initPlayer : AchievementData := ⟨[], 0, 0, 0, false⟩

/-- The process environment: the read-only catalog (`achievement_db`, as an
iteration sequence), the dense level threshold table
(`achievement_level_db`, position = zero-based level), the guard-condition
oracle (`achievement_check_condition` outcome, keyed by achievement id),
the current time (`time(NULL)`), the feature switch
(`battle_config.feature_achievement`) and whether the inter-server reward
request can be issued (`intif_achievement_reward` return value). -/
structure Env where
  db : List AchievementDef
  levels : List Nat
  condResult : Nat → Bool
  now : Nat
  featureEnabled : Bool
  intifOk : Bool

/-- Catalog lookup `achievement_db.find(id)`. -/
def dbFind (db : List AchievementDef) (id : Nat) : Option AchievementDef :=
  db.find? (fun d => d.achievement_id = id)

/-- Objective-counter read `count[i]` (out of range reads 0; in the C code
the index is always below `MAX_ACHIEVEMENT_OBJECTIVES`). -/
def cntGet (c : List Nat) (i : Nat) : Nat := c.getD i 0

/-- Objective-counter write `count[i] = v` (out of range is a no-op). -/
def cntSet (c : List Nat) (i : Nat) (v : Nat) : List Nat := c.set i v

/-- List insertion at an index, as done by the `RECREATE` + `memmove` in
`achievement_add`: the elements from `index` on are shifted up by one. -/
def insertAt (l : List α) (i : Nat) (a : α) : List α :=
  l.take i ++ a :: l.drop i

/-- List removal at an index, as done by the `memmove` + `RECREATE` in
`achievement_remove`. -/
def removeAt (l : List α) (i : Nat) : List α :=
  l.take i ++ l.drop (i + 1)

/-- Exchange of the elements at positions `i` and `k` (the three `memcpy`
calls in `achievement_update_achievement`). -/
def listSwap [Inhabited α] (l : List α) (i k : Nat) : List α :=
  (l.set i (l.getD k default)).set k (l.getD i default)

/-- ARR_FIND over the whole record array: index of the first record with
the given achievement id. -/
def findAchIdx : List Achievement → Nat → Option Nat
  | [], _ => none
  | a :: r, id =>
    if a.achievement_id = id then some 0 else (findAchIdx r id).map (· + 1)

/-- ARR_FIND over the incomplete prefix `[0, bound)` only, as used by
`achievement_update_achievement`. -/
def findAchIdxUpTo (l : List Achievement) (bound : Nat) (id : Nat) : Option Nat :=
  findAchIdx (l.take bound) id

/-- Record read by index. -/
def getAch (st : AchievementData) (i : Nat) : Achievement :=
  st.achievements.getD i default

/-- Record lookup by achievement id (the record the first matching index
points at). -/
def lookupRec (st : AchievementData) (id : Nat) : Option Achievement :=
  (findAchIdx st.achievements id).map (fun i => getAch st i)

/-- Whether the player has a record for the given achievement id. -/
def hasRec (st : AchievementData) (id : Nat) : Prop :=
  ∃ a ∈ st.achievements, a.achievement_id = id

instance (st : AchievementData) (id : Nat) : Decidable (hasRec st id) := by
  unfold hasRec; infer_instance

/-- The total-score recount loop of `achievement_level`: sum of `score`
over the records whose completion timestamp is nonzero. -/
def totalScoreOf (l : List Achievement) : Nat :=
  (l.map (fun a => if 0 < a.completed then a.score else 0)).sum

/-- achievement_add: fails (`none`) if the id is unknown in the catalog or
the player already has a record; otherwise inserts a zero-initialized
record at the partition boundary (last incomplete position), copying the
score from the definition, and flags the data dirty. -/
def achievement_add (env : Env) (st : AchievementData) (id : Nat) :
    Option AchievementData :=
  match dbFind env.db id with
  | none => none
  | some adb =>
    match findAchIdx st.achievements id with
    | some _ => none
    | none =>
      let newAch : Achievement :=
        { achievement_id := id, count := List.replicate MAX_ACHIEVEMENT_OBJECTIVES 0,
          completed := 0, rewarded := 0, score := adb.score }
      some { st with
        achievements := insertAt st.achievements st.incompleteCount newAch,
        incompleteCount := st.incompleteCount + 1,
        save := true }

/-- achievement_remove: fails if the id is unknown in the catalog or the
player has no record; otherwise removes the record, decrementing
`incompleteCount` only when the removed record was incomplete.  The cached
`total_score` and `level` are left untouched. -/
def achievement_remove (env : Env) (st : AchievementData) (id : Nat) :
    Option AchievementData :=
  match dbFind env.db id with
  | none => none
  | some _ =>
    match findAchIdx st.achievements id with
    | none => none
    | some i =>
      let a := getAch st i
      some { st with
        achievements := removeAt st.achievements i,
        incompleteCount :=
          if a.completed = 0 then st.incompleteCount - 1 else st.incompleteCount,
        save := true }

/-- achievement_done: whether the player has a record for the id with a
nonzero completion timestamp. -/
def achievement_done (st : AchievementData) (id : Nat) : Bool :=
  st.achievements.any (fun a => a.achievement_id = id && 0 < a.completed)

/-- achievement_check_dependent: false when the id is unknown in the
catalog; otherwise true iff every prerequisite in `dependent_ids` is
completed for the player. -/
def achievement_check_dependent (env : Env) (st : AchievementData) (id : Nat) :
    Bool :=
  match dbFind env.db id with
  | none => false
  | some adb => adb.dependent_ids.all (fun d => achievement_done st d)

/-- The level walk of `achievement_level`, written structurally over the
dense threshold table (position = level, as `achievement_level_db` is
indexed by consecutive zero-based levels): while the total score strictly
exceeds the current level's threshold and a further level exists the walk
advances; if the table is exhausted it pins the level one past the last
defined one with 0 points-to-next, and otherwise reports the deltas against
the previous level's threshold (the raw values at level 0).  `prev` is the
threshold of level `lvl - 1` (0 at level 0, never read there).  An empty
table dereferences a missing entry in the C code, modelled as `none`. -/
def levelWalkGo (total : Nat) (lvl : Nat) (prev : Nat) :
    List Nat → Option (Nat × Int × Int)
  | [] => none
  | pts :: rest =>
    if pts < total then
      if rest.isEmpty then some (lvl + 1, (total : Int) - (pts : Int), 0)
      else levelWalkGo total (lvl + 1) pts rest
    else if lvl = 0 then
      some (0, (total : Int), (pts : Int))
    else
      some (lvl, (total : Int) - (prev : Int), (pts : Int) - (prev : Int))

/-- The walk of `achievement_level` starting from level 0. -/
def levelWalk (levels : List Nat) (total : Nat) : Option (Nat × Int × Int) :=
  levelWalkGo total 0 0 levels

/-- The objective-value array built by `achievement_update_objective` from
its varargs: `count[i] = args[i]` for the supplied arguments, remaining
slots 0. -/
def argsToCounts (args : List Nat) : List Nat :=
  (List.range MAX_ACHIEVEMENT_OBJECTIVES).map (fun i => args.getD i 0)

/-- The AG_BATTLE / AG_TAMING loop of `achievement_update_objectives`:
every slot whose configured monster id equals the event's monster id and
whose running count is below its required count is incremented; the flag
records whether any slot changed. -/
def battleCounts (mobId : Nat) : List (Nat × AchTarget) → List Nat → List Nat × Bool
  | [], current => (current, false)
  | it :: rest, current =>
    if it.2.mob = mobId ∧ cntGet current it.1 < it.2.count then
      ((battleCounts mobId rest (cntSet current it.1 (cntGet current it.1 + 1))).1, true)
    else
      battleCounts mobId rest current

/-- The AG_SPEND_ZENY loop of `achievement_update_objectives`: every slot
whose running count is below its required count accumulates the event's
value for that slot. -/
def spendCounts (update : List Nat) : List (Nat × AchTarget) → List Nat → List Nat
  | [], current => current
  | it :: rest, current =>
    if cntGet current it.1 < it.2.count then
      spendCounts update rest (cntSet current it.1 (cntGet current it.1 + cntGet update it.1))
    else
      spendCounts update rest current

/-- The completion test of `achievement_update_objectives` (`std::find_if`
for a slot below its requirement finds none): every slot meets or exceeds
its required count. -/
def targetsMet (targets : List (Nat × AchTarget)) (current : List Nat) : Bool :=
  targets.all (fun it => !(cntGet current it.1 < it.2.count))

/-- The completion fill of `achievement_update_achievement`: every slot
defined on the achievement is raised to its required count. -/
def fillTargets : List (Nat × AchTarget) → List Nat → List Nat
  | [], c => c
  | it :: rest, c => fillTargets rest (cntSet c it.1 it.2.count)

/-- The condition-only groups of the `switch` in
`achievement_update_objectives` (first case label block). -/
def isConditionGroup : AchGroup → Bool
  | .AG_ADD_FRIEND | .AG_BABY | .AG_CHAT_COUNT | .AG_CHAT_CREATE
  | .AG_CHAT_DYING | .AG_GET_ITEM | .AG_GET_ZENY | .AG_GOAL_LEVEL
  | .AG_GOAL_STATUS | .AG_JOB_CHANGE | .AG_MARRY | .AG_PARTY
  | .AG_REFINE_FAIL | .AG_REFINE_SUCCESS => true
  | _ => false

/-- Overwrite the objective-counter array of the record at index `i` (the
`memcpy(entry->count, current_count.data(), ...)`). -/
def setCountAt (st : AchievementData) (i : Nat) (c : List Nat) : AchievementData :=
  { st with achievements := st.achievements.set i { getAch st i with count := c } }

/-- The completed form of the record at index `i`, first half of the
completion mutation of `achievement_update_achievement`: every objective
slot defined on the achievement raised to its required count and the
completion timestamp stamped with the current time. -/
def completedRec (env : Env) (st : AchievementData) (i : Nat)
    (adb : AchievementDef) : Achievement :=
  { getAch st i with count := fillTargets adb.targets (getAch st i).count,
                     completed := env.now }

/-- The in-place completion of the record at index `i`, second half of the
mutation described above: write the completed record back, shrink the
incomplete prefix by one and swap the record to its former last position
(no swap when it already is the last incomplete one). -/
def completeCore (env : Env) (st : AchievementData) (i : Nat)
    (adb : AchievementDef) : AchievementData :=
  let a1 := completedRec env st i adb
  let k := st.incompleteCount - 1
  let achs1 := st.achievements.set i a1
  let achs2 := if i < k then listSwap achs1 i k else achs1
  { st with achievements := achs2, incompleteCount := k }

/-- A creation trace: for every player record created during an update, the
achievement id together with the player state at the moment of creation
(immediately before the `achievement_add` call). -/
abbrev Trace := List (Nat × AchievementData)

/-- The recursive core of the subsystem, one field per C function that
takes part in the completion cascade.  `engine fuel` ties the recursion. -/
structure Engine where
  upd_objective : Env → AchievementData → AchGroup → List Nat →
    Option (AchievementData × Trace)
  upd_objectives : Env → AchievementData → AchievementDef → AchGroup → List Nat →
    Option (AchievementData × Bool × Trace)
  upd_achievement : Env → AchievementData → Nat → Bool →
    Option (AchievementData × Bool × Trace)
  level : Env → AchievementData → Bool →
    Option (AchievementData × Int × Int × Trace)
  check_groups : Env → AchievementData → AchievementDef →
    Option (AchievementData × Trace)

/-- The per-event catalog scan of `achievement_update_objective`
(`for (auto &ach : achievement_db) achievement_update_objectives(...)`).
Each entry's success or failure is ignored; the scan always continues. -/
def scanObjectives (f : Env → AchievementData → AchievementDef → AchGroup → List Nat →
    Option (AchievementData × Bool × Trace)) (env : Env) (g : AchGroup)
    (args : List Nat) : AchievementData → List AchievementDef →
    Option (AchievementData × Trace)
  | st, [] => some (st, [])
  | st, d :: ds =>
    match f env st d g args with
    | none => none
    | some (st1, _, tr1) =>
      match scanObjectives f env g args st1 ds with
      | none => none
      | some (st2, tr2) => some (st2, tr1 ++ tr2)

/-- The post-completion catalog scan of `achievement_update_achievement`
(`for (auto &ach : achievement_db) achievement_check_groups(sd, ...)`). -/
def scanGroups (f : Env → AchievementData → AchievementDef →
    Option (AchievementData × Trace)) (env : Env) :
    AchievementData → List AchievementDef → Option (AchievementData × Trace)
  | st, [] => some (st, [])
  | st, d :: ds =>
    match f env st d with
    | none => none
    | some (st1, tr1) =>
      match scanGroups f env st1 ds with
      | none => none
      | some (st2, tr2) => some (st2, tr1 ++ tr2)

/-- The per-group `switch` of `achievement_update_objectives`, acting on
the local copy `current` of the objective counters.  `none` is a
`return false` of the source (parameters not met / nothing to do); `some`
carries the updated local counters and the `changed` and `complete`
flags.  Groups without a `case` label (AG_ADVENTURE, AG_CHAT and
AG_GOAL_ACHIEVE) fall through the switch with nothing changed. -/
def objStep (env : Env) (ad : AchievementDef) (group : AchGroup)
    (update_count current : List Nat) : Option (List Nat × Bool × Bool) :=
  if isConditionGroup group then
    if ¬ ad.hasCondition then none
    else if ¬ env.condResult ad.achievement_id then none
    else some (current, true, true)
  else if group = .AG_SPEND_ZENY then
    if ad.targets.isEmpty ∨ ¬ ad.hasCondition then none
    else
      let cur1 := spendCounts update_count ad.targets current
      if ¬ env.condResult ad.achievement_id then none
      else some (cur1, true, targetsMet ad.targets cur1)
  else if group = .AG_BATTLE ∨ group = .AG_TAMING then
    if ad.targets.isEmpty then none
    else
      let r := battleCounts (cntGet update_count 0) ad.targets current
      if ¬ r.2 then none
      else some (r.1, true, targetsMet ad.targets r.1)
  else
    some (current, false, false)

/-- achievement_update_objectives (one catalog entry against one event),
with one unit of fuel spent on the nested `achievement_update_achievement`
call.  Structure, following the source: group match check; record lookup
(a completed record ignores the event; a missing record is gated by
`achievement_check_dependent`); the per-group `switch` (`objStep`, acting
on a zero local counter array for a new record and on a copy of the
record's counters otherwise); for a new record, creation only when it
completed immediately or some counter is nonzero (`hasCounter`); finally
the counter write-back and `achievement_update_achievement` when
something changed. -/
def updObjectivesF (prev : Engine) (env : Env) (st : AchievementData)
    (ad : AchievementDef) (group : AchGroup) (update_count : List Nat) :
    Option (AchievementData × Bool × Trace) :=
  if group ≠ ad.group then some (st, false, [])
  else
    match findAchIdx st.achievements ad.achievement_id with
    | none =>
      if ¬ achievement_check_dependent env st ad.achievement_id then
        some (st, false, [])
      else
        match objStep env ad group update_count
            (List.replicate MAX_ACHIEVEMENT_OBJECTIVES 0) with
        | none => some (st, false, [])
        | some (cur1, changed, complete) =>
          if complete ∨ cur1.any (fun x => x ≠ 0) then
            match achievement_add env st ad.achievement_id with
            | none => some (st, false, [])
            | some st1 =>
              if changed then
                match prev.upd_achievement env
                    (setCountAt st1 st.incompleteCount cur1)
                    ad.achievement_id complete with
                | none => none
                | some (st3, _, tr) =>
                  some (st3, true, (ad.achievement_id, st) :: tr)
              else some (st1, true, [(ad.achievement_id, st)])
          else some (st, true, [])
    | some i =>
      if 0 < (getAch st i).completed then some (st, false, [])
      else
        match objStep env ad group update_count (getAch st i).count with
        | none => some (st, false, [])
        | some (cur1, changed, complete) =>
          if changed then
            match prev.upd_achievement env (setCountAt st i cur1)
                ad.achievement_id complete with
            | none => none
            | some (st3, _, tr) => some (st3, true, tr)
          else some (st, true, [])

/-- achievement_update_achievement: looks the record up in the incomplete
prefix only, rejects an already completed record, and on completion fills
the objective counters to their requirements, stamps the completion time,
swaps the record to the end of the incomplete prefix while shrinking it,
recalculates the level, and re-scans the dependent-only groups. -/
def updAchievementF (prev : Engine) (env : Env) (st : AchievementData)
    (id : Nat) (complete : Bool) : Option (AchievementData × Bool × Trace) :=
  match dbFind env.db id with
  | none => some (st, false, [])
  | some adb =>
    match findAchIdxUpTo st.achievements st.incompleteCount id with
    | none => some (st, false, [])
    | some i =>
      let a := getAch st i
      if 0 < a.completed then some (st, false, [])
      else if complete then
        let st1 := completeCore env st i adb
        match prev.level env st1 true with
        | none => none
        | some (st2, _, _, tr1) =>
          match scanGroups prev.check_groups env st2 env.db with
          | none => none
          | some (st3, tr2) => some ({ st3 with save := true }, true, tr1 ++ tr2)
      else
        some ({ st with save := true }, true, [])

/-- achievement_level: recounts the total score over the completed
records, walks the threshold table, stores the new total and level, and —
when requested and the level changed — feeds an AG_GOAL_ACHIEVE event with
a zero argument back into the objective update engine. -/
def levelF (prev : Engine) (env : Env) (st : AchievementData) (flag : Bool) :
    Option (AchievementData × Int × Int × Trace) :=
  let total := totalScoreOf st.achievements
  let old_level := st.level
  match levelWalk env.levels total with
  | none => none
  | some (newLevel, left, right) =>
    let st1 := { st with total_score := total, level := newLevel }
    if flag ∧ old_level ≠ newLevel then
      match prev.upd_objective env st1 .AG_GOAL_ACHIEVE [0] with
      | none => none
      | some (st2, tr) => some (st2, left, right, tr)
    else
      some (st1, left, right, [])

/-- achievement_check_groups: for a battle/taming/adventure entry that has
prerequisites, no guard condition, and no record yet for the player, adds
and immediately completes the achievement as soon as every prerequisite is
complete. -/
def checkGroupsF (prev : Engine) (env : Env) (st : AchievementData)
    (ad : AchievementDef) : Option (AchievementData × Trace) :=
  if ad.group ≠ .AG_BATTLE ∧ ad.group ≠ .AG_TAMING ∧ ad.group ≠ .AG_ADVENTURE then
    some (st, [])
  else if ad.dependent_ids.isEmpty ∨ ad.hasCondition then
    some (st, [])
  else
    match findAchIdx st.achievements ad.achievement_id with
    | some _ => some (st, [])
    | none =>
      if achievement_check_dependent env st ad.achievement_id then
        match achievement_add env st ad.achievement_id with
        | some st1 =>
          match prev.upd_achievement env st1 ad.achievement_id true with
          | none => none
          | some (st2, _, tr) => some (st2, (ad.achievement_id, st) :: tr)
        | none =>
          match prev.upd_achievement env st ad.achievement_id true with
          | none => none
          | some (st2, _, tr) => some (st2, tr)
      else some (st, [])

/-- achievement_update_objective: the public event entry point.  A
disabled achievement feature makes it a no-op; an AG_CHAT event has no
objective use; otherwise every catalog entry is run against the event
(the transient ARGi script variables set around the scan exist only for
guard evaluation and live in the `condResult` oracle). -/
def updObjectiveF (prev : Engine) (env : Env) (st : AchievementData)
    (group : AchGroup) (args : List Nat) : Option (AchievementData × Trace) :=
  if ¬ env.featureEnabled then some (st, [])
  else if group = .AG_CHAT then some (st, [])
  else scanObjectives prev.upd_objectives env group (argsToCounts args) st env.db

/-- One cascade layer: every field calls back into the previous layer. -/
def mkEngine (prev : Engine) : Engine where
  upd_objective := updObjectiveF prev
  upd_objectives := updObjectivesF prev
  upd_achievement := updAchievementF prev
  level := levelF prev
  check_groups := checkGroupsF prev

/-- The fuel-indexed engine; at fuel 0 every entry point diverges
(`none`).  Any terminating C execution is reproduced by every sufficiently
large fuel. -/
def engine : Nat → Engine
  | 0 => ⟨fun _ _ _ _ => none, fun _ _ _ _ _ => none, fun _ _ _ _ => none,
          fun _ _ _ => none, fun _ _ _ => none⟩
  | n + 1 => mkEngine (engine n)

/-- achievement_update_objective at a given fuel. -/
def achievement_update_objective (fuel : Nat) (env : Env) (st : AchievementData)
    (group : AchGroup) (args : List Nat) : Option (AchievementData × Trace) :=
  (engine fuel).upd_objective env st group args

/-- achievement_update_objectives at a given fuel. -/
def achievement_update_objectives (fuel : Nat) (env : Env) (st : AchievementData)
    (ad : AchievementDef) (group : AchGroup) (args : List Nat) :
    Option (AchievementData × Bool × Trace) :=
  (engine fuel).upd_objectives env st ad group args

/-- achievement_update_achievement at a given fuel. -/
def achievement_update_achievement (fuel : Nat) (env : Env) (st : AchievementData)
    (id : Nat) (complete : Bool) : Option (AchievementData × Bool × Trace) :=
  (engine fuel).upd_achievement env st id complete

/-- achievement_level at a given fuel. -/
def achievement_level (fuel : Nat) (env : Env) (st : AchievementData)
    (flag : Bool) : Option (AchievementData × Int × Int × Trace) :=
  (engine fuel).level env st flag

/-- achievement_check_groups at a given fuel. -/
def achievement_check_groups (fuel : Nat) (env : Env) (st : AchievementData)
    (ad : AchievementDef) : Option (AchievementData × Trace) :=
  (engine fuel).check_groups env st ad

/-! ### Administrative operations, progress query and reward claim -/

/-- One store operation as listed in the spec: administrative add,
administrative remove, or completion
(`achievement_update_achievement` with `complete = true`). -/
inductive AchOp
  | add (id : Nat)
  | remove (id : Nat)
  | complete (id : Nat)

/-- Apply one operation; a failed add or remove leaves the state unchanged
(the C functions log an error and return without touching the store),
while a completion runs the engine at the given fuel. -/
def applyOp (fuel : Nat) (env : Env) (st : AchievementData) :
    AchOp → Option AchievementData
  | .add id => some ((achievement_add env st id).getD st)
  | .remove id => some ((achievement_remove env st id).getD st)
  | .complete id =>
    (achievement_update_achievement fuel env st id true).map (fun r => r.1)

/-- Apply a sequence of operations from left to right. -/
def applyOps (fuel : Nat) (env : Env) :
    AchievementData → List AchOp → Option AchievementData
  | st, [] => some st
  | st, op :: ops =>
    match applyOp fuel env st op with
    | none => none
    | some st1 => applyOps fuel env st1 ops

/-- Modelled from the spec: the `e_achievement_info` enum used by
`achievement_check_progress` lives in `map/achievement.hpp`, which is not
among the given sources; the spec lists the supported queries (ten
objective counters, completion flag, completion timestamp, reward flag,
level, total score).  The ten counter types are contiguous starting at 1
so that `type - 1` indexes the counter array, as
`achievement_check_progress` relies on. -/
def ACHIEVEINFO_COUNT1 : Nat := 1

/-- Last of the ten contiguous objective-counter query types. -/
def ACHIEVEINFO_COUNT10 : Nat := 10

/-- Query type for the completion flag. -/
def ACHIEVEINFO_COMPLETE : Nat := 11

/-- Query type for the completion timestamp. -/
def ACHIEVEINFO_COMPLETEDATE : Nat := 12

/-- Query type for the reward-claimed flag. -/
def ACHIEVEINFO_GOTREWARD : Nat := 13

/-- Query type for the player's cached achievement level. -/
def ACHIEVEINFO_LEVEL : Nat := 14

/-- Query type for the player's cached total score. -/
def ACHIEVEINFO_SCORE : Nat := 15

/-- achievement_check_progress: the level and total-score queries answer
from the player caches before any record lookup; the remaining types look
the record up and return -1 when the player lacks the achievement, -2 for
an unknown type. -/
def achievement_check_progress (st : AchievementData) (achievement_id : Nat)
    (type : Nat) : Int :=
  if type = ACHIEVEINFO_LEVEL then (st.level : Int)
  else if type = ACHIEVEINFO_SCORE then (st.total_score : Int)
  else
    match findAchIdx st.achievements achievement_id with
    | none => -1
    | some i =>
      if ACHIEVEINFO_COUNT1 ≤ type ∧ type ≤ ACHIEVEINFO_COUNT10 then
        (cntGet (getAch st i).count (type - 1) : Int)
      else if type = ACHIEVEINFO_COMPLETE then
        (if 0 < (getAch st i).completed then 1 else 0)
      else if type = ACHIEVEINFO_COMPLETEDATE then
        ((getAch st i).completed : Int)
      else if type = ACHIEVEINFO_GOTREWARD then
        (if 0 < (getAch st i).rewarded then 1 else 0)
      else -2

/-- Outcome of a reward claim attempt: a denial acknowledgement to the
client, or a claim request issued to the inter server. -/
inductive RewardOutcome
  | denied
  | requested
deriving DecidableEq

/-- achievement_check_reward: the claim entry point.  It denies (sends the
failure `clif_achievement_reward_ack`) when the achievement id is unknown
in the catalog, the player has no record for it, the record is already
rewarded or not completed, or the inter-server request cannot be issued
(`!intif_achievement_reward`); otherwise the claim is forwarded to the
inter server.  The player state is never modified here. -/
def achievement_check_reward (env : Env) (st : AchievementData) (id : Nat) :
    RewardOutcome :=
  match dbFind env.db id with
  | none => .denied
  | some _ =>
    match findAchIdx st.achievements id with
    | none => .denied
    | some i =>
      if 0 < (getAch st i).rewarded ∨ (getAch st i).completed = 0 then .denied
      else if ¬ env.intifOk then .denied
      else .requested

/-- achievement_get_reward: the approval callback from the inter server.
A zero timestamp is acknowledged as a denial without touching the record;
otherwise the reward timestamp is written to the cache and the reward
script (when present) is run.  The returned flag records whether the
reward script ran. -/
def achievement_get_reward (env : Env) (st : AchievementData) (id : Nat)
    (rewarded : Nat) : AchievementData × Bool :=
  match dbFind env.db id with
  | none => (st, false)
  | some adb =>
    if rewarded = 0 then (st, false)
    else
      match findAchIdx st.achievements id with
      | none => (st, false)
      | some i =>
        ({ st with
            achievements := st.achievements.set i
              { getAch st i with rewarded := rewarded },
            save := true },
         adb.hasRewardScript)

/-- Number of leading threshold entries strictly below the total score:
the level the walk of `achievement_level` stops at (the table length
itself when every threshold is exceeded, i.e. the pinned display level). -/
def walkLevelSpec (total : Nat) : List Nat → Nat
  | [] => 0
  | p :: rest => if p < total then walkLevelSpec total rest + 1 else 0

/-! ### Concrete catalog, environments and states for the scenarios -/

/-- A battle achievement: 3 kills of monster 1002, worth 10 points. -/
def adBattle : AchievementDef :=
  { achievement_id := 1, group := .AG_BATTLE, targets := [(0, ⟨3, 1002⟩)],
    hasCondition := false, dependent_ids := [], mapindex := 0, score := 10,
    rewardTitleId := 0, hasRewardScript := false }

/-- A zeny-spend achievement: 500 zeny on slot 0, guarded, worth 20. -/
def adSpend : AchievementDef :=
  { achievement_id := 2, group := .AG_SPEND_ZENY, targets := [(0, ⟨500, 0⟩)],
    hasCondition := true, dependent_ids := [], mapindex := 0, score := 20,
    rewardTitleId := 0, hasRewardScript := false }

/-- A battle achievement depending on achievement 1. -/
def adDep : AchievementDef :=
  { achievement_id := 3, group := .AG_BATTLE, targets := [(0, ⟨1, 1002⟩)],
    hasCondition := true, dependent_ids := [1], mapindex := 0, score := 30,
    rewardTitleId := 0, hasRewardScript := false }

/-- The main concrete environment of the scenarios. -/
def envMain : Env :=
  { db := [adBattle, adSpend, adDep], levels := [100, 300],
    condResult := fun _ => true, now := 7, featureEnabled := true,
    intifOk := true }

/-- `envMain` with a guard oracle that always fails. -/
def envNoCond : Env := { envMain with condResult := fun _ => false }

/-- `envMain` with the inter server unreachable. -/
def envNoIntif : Env := { envMain with intifOk := false }

/-- A player holding exactly the completed (unclaimed) record of
achievement 1, with consistent caches. -/
def stC1 : AchievementData :=
  ⟨[⟨1, [3, 0, 0, 0, 0, 0, 0, 0, 0, 0], 7, 0, 10⟩], 0, 10, 0, true⟩

/-- A player with an incomplete zeny-spend record at 200 of 500. -/
def stSpend : AchievementData :=
  ⟨[⟨2, [200, 0, 0, 0, 0, 0, 0, 0, 0, 0], 0, 0, 20⟩], 1, 0, 0, true⟩

/-- One kill of monster 1002 reported to the public entry point. -/
def battleEvent (st : AchievementData) : Option (AchievementData × Trace) :=
  achievement_update_objective 4 envMain st .AG_BATTLE [1002]

/-- Three kills of monster 1002 in sequence from a fresh player. -/
def kills3 : Option AchievementData :=
  match battleEvent initPlayer with
  | none => none
  | some (s1, _) =>
    match battleEvent s1 with
    | none => none
    | some (s2, _) => (battleEvent s2).map (fun r => r.1)

/-- Two kills of monster 1002 in sequence from a fresh player. -/
def kill2 : Option AchievementData :=
  match battleEvent initPlayer with
  | none => none
  | some (s1, _) => (battleEvent s1).map (fun r => r.1)

/-- The player of the C3 level scenario: two completed records worth
100 and 150 points, caches not yet recomputed. -/
def stLvl : AchievementData :=
  ⟨[⟨1, [3, 0, 0, 0, 0, 0, 0, 0, 0, 0], 7, 0, 100⟩,
    ⟨2, [500, 0, 0, 0, 0, 0, 0, 0, 0, 0], 7, 0, 150⟩], 0, 0, 0, false⟩

/-- The partition invariant of the progress store: `incompleteCount` is in
range, the records at indices below it are exactly those with completion
timestamp 0, the rest exactly those with a nonzero one, and no achievement
id occurs in more than one record. -/
def StoreInv (st : AchievementData) : Prop :=
  st.incompleteCount ≤ st.achievements.length ∧
  (∀ i < st.achievements.length,
    ((st.achievements.getD i default).completed = 0 ↔ i < st.incompleteCount)) ∧
  (st.achievements.map (fun a => a.achievement_id)).Nodup

instance (st : AchievementData) : Decidable (StoreInv st) := by
  unfold StoreInv; infer_instance

/-- The score-consistency invariant: the cached total score equals the sum
of the per-record scores over the completed partition. -/
def scoreInv (st : AchievementData) : Prop :=
  st.total_score = totalScoreOf st.achievements

instance (st : AchievementData) : Decidable (scoreInv st) := by
  unfold scoreInv; infer_instance

/-- The new record inserted by `achievement_add`. -/
def newRecord (id : Nat) (score : Nat) : Achievement :=
  ⟨id, List.replicate MAX_ACHIEVEMENT_OBJECTIVES 0, 0, 0, score⟩

/-- What one engine operation guarantees between its input state `st`, its
output state `st'` and its creation trace `tr`, under a nonzero clock and
a well-formed input store where stated: the partition invariant is
preserved, completed records survive untouched, score consistency is
preserved, every traced creation was dependency-gated at its recorded
moment, and every record of the output was either already present or is
a traced creation. -/
structure StepRel (env : Env) (st st' : AchievementData) (tr : Trace) : Prop where
  inv : 0 < env.now → StoreInv st → StoreInv st'
  frame : 0 < env.now → StoreInv st → ∀ a ∈ st.achievements,
    0 < a.completed → a ∈ st'.achievements
  score : scoreInv st → scoreInv st'
  gated : ∀ p ∈ tr, achievement_check_dependent env p.2 p.1 = true
  created : 0 < env.now → StoreInv st → ∀ x, hasRec st' x →
    hasRec st x ∨ ∃ s, (x, s) ∈ tr

/-- The step relation holds of every operation of an engine layer. -/
structure EngineOK (env : Env) (e : Engine) : Prop where
  objective : ∀ st g args r, e.upd_objective env st g args = some r →
    StepRel env st r.1 r.2
  objectives : ∀ st ad g args r, e.upd_objectives env st ad g args = some r →
    StepRel env st r.1 r.2.2
  achievement : ∀ st id c r, e.upd_achievement env st id c = some r →
    StepRel env st r.1 r.2.2
  level : ∀ st flag r, e.level env st flag = some r →
    StepRel env st r.1 r.2.2.2 ∧ scoreInv r.1
  groups : ∀ st ad r, e.check_groups env st ad = some r →
    StepRel env st r.1 r.2

/-! ### Index and permutation lemmas for the list primitives -/

theorem getD_set (l : List α) (i j : Nat) (a d : α) :
    (l.set i a).getD j d = if i = j ∧ j < l.length then a else l.getD j d := by
  induction l generalizing i j with
  | nil => simp [List.set]
  | cons x xs ih =>
    cases i with
    | zero => cases j <;> simp [List.set]
    | succ n =>
      cases j with
      | zero => simp [List.set]
      | succ m =>
        simp only [List.set, List.getD_cons_succ, List.length_cons, ih n m]
        by_cases h1 : n = m ∧ m < xs.length
        · rw [if_pos h1, if_pos (by omega)]
        · rw [if_neg h1, if_neg (by omega)]

theorem set_getD_self (l : List α) (i : Nat) (d : α) (h : i < l.length) :
    l.set i (l.getD i d) = l := by
  induction l generalizing i with
  | nil => simp at h
  | cons x xs ih =>
    cases i with
    | zero => simp [List.set]
    | succ n => simp only [List.set, List.getD_cons_succ]
                exact congrArg (x :: ·) (ih n (by simpa using h))

theorem getD_append (l₁ l₂ : List α) (j : Nat) (d : α) :
    (l₁ ++ l₂).getD j d =
      if j < l₁.length then l₁.getD j d else l₂.getD (j - l₁.length) d := by
  induction l₁ generalizing j with
  | nil => simp
  | cons x xs ih =>
    cases j with
    | zero => simp
    | succ m =>
      simp only [List.cons_append, List.getD_cons_succ, List.length_cons, ih m]
      by_cases h : m < xs.length
      · rw [if_pos h, if_pos (by omega)]
      · rw [if_neg h, if_neg (by omega), Nat.succ_sub_succ]

theorem getD_take (l : List α) (i j : Nat) (d : α) (h : j < i) :
    (l.take i).getD j d = l.getD j d := by
  induction l generalizing i j with
  | nil => simp
  | cons x xs ih =>
    cases i with
    | zero => omega
    | succ n =>
      cases j with
      | zero => simp
      | succ m => simp only [List.take, List.getD_cons_succ]
                  exact ih n m (by omega)

theorem getD_drop (l : List α) (i j : Nat) (d : α) :
    (l.drop i).getD j d = l.getD (i + j) d := by
  induction l generalizing i with
  | nil => simp
  | cons x xs ih =>
    cases i with
    | zero => simp
    | succ n =>
      simp only [List.drop]
      rw [ih n, Nat.succ_add, List.getD_cons_succ]

theorem length_insertAt (l : List α) (i : Nat) (a : α) :
    (insertAt l i a).length = l.length + 1 := by
  unfold insertAt
  simp [List.length_take]
  omega

theorem insertAt_perm (l : List α) (i : Nat) (a : α) :
    (insertAt l i a).Perm (a :: l) := by
  unfold insertAt
  have h := @List.perm_middle _ a (l.take i) (l.drop i)
  rwa [List.take_append_drop] at h

theorem mem_insertAt (l : List α) (i : Nat) (a b : α) :
    b ∈ insertAt l i a ↔ b = a ∨ b ∈ l := by
  rw [(insertAt_perm l i a).mem_iff, List.mem_cons]

theorem map_insertAt (l : List α) (i : Nat) (a : α) (f : α → β) :
    (insertAt l i a).map f = insertAt (l.map f) i (f a) := by
  unfold insertAt
  simp [List.map_take, List.map_drop]

theorem getD_insertAt (l : List α) (i j : Nat) (a d : α) (hi : i ≤ l.length) :
    (insertAt l i a).getD j d =
      if j < i then l.getD j d else if j = i then a else l.getD (j - 1) d := by
  unfold insertAt
  rw [getD_append]
  have hlen : (l.take i).length = i := by simp [List.length_take]; omega
  rw [hlen]
  by_cases h1 : j < i
  · rw [if_pos h1, if_pos h1, getD_take _ _ _ _ h1]
  · rw [if_neg h1, if_neg h1]
    by_cases h2 : j = i
    · subst h2
      simp
    · rw [if_neg h2]
      have h3 : j - i = (j - i - 1) + 1 := by omega
      rw [h3, List.getD_cons_succ, getD_drop]
      congr 1
      omega

theorem getD_removeAt (l : List α) (i j : Nat) (d : α) :
    (removeAt l i).getD j d = if j < i then l.getD j d else l.getD (j + 1) d := by
  unfold removeAt
  rw [getD_append, List.length_take]
  by_cases h1 : j < min i l.length
  · rw [if_pos h1, if_pos (by omega), getD_take _ _ _ _ (by omega)]
  · rw [if_neg h1]
    by_cases h2 : j < i
    · rw [if_pos h2, getD_drop]
      have hj : l.length ≤ j := by omega
      rw [List.getD_eq_default _ _ hj, List.getD_eq_default _ _ (by omega)]
    · rw [if_neg h2, getD_drop]
      by_cases h3 : i ≤ l.length
      · congr 1
        omega
      · rw [List.getD_eq_default _ _ (by omega), List.getD_eq_default _ _ (by omega)]

theorem removeAt_sublist (l : List α) (i : Nat) : (removeAt l i).Sublist l := by
  unfold removeAt
  have h1 : (l.drop (i + 1)).Sublist (l.drop i) := by
    have h := List.drop_sublist 1 (l.drop i)
    rw [List.drop_drop] at h
    simpa [Nat.add_comm] using h
  have h2 := h1.append_left (l.take i)
  rwa [List.take_append_drop] at h2

theorem mem_of_mem_removeAt {l : List α} {i : Nat} {a : α}
    (h : a ∈ removeAt l i) : a ∈ l := (removeAt_sublist l i).mem h

theorem length_listSwap [Inhabited α] (l : List α) (i k : Nat) :
    (listSwap l i k).length = l.length := by
  simp [listSwap]

theorem getD_cons_set_perm [Inhabited α] (l : List α) (m : Nat) (x : α)
    (h : m < l.length) :
    (l.getD m default :: l.set m x).Perm (x :: l) := by
  induction l generalizing m with
  | nil => simp at h
  | cons y t ih =>
    cases m with
    | zero =>
      simp only [List.getD_cons_zero, List.set]
      exact List.Perm.swap x y t
    | succ n =>
      simp only [List.getD_cons_succ, List.set]
      refine (List.Perm.swap _ _ _).trans ?_
      refine ((ih n (by simpa using h)).cons y).trans ?_
      exact List.Perm.swap _ _ _

theorem listSwap_perm [Inhabited α] (l : List α) (i k : Nat)
    (hi : i < l.length) (hk : k < l.length) : (listSwap l i k).Perm l := by
  induction l generalizing i k with
  | nil => simp at hi
  | cons x xs ih =>
    unfold listSwap
    cases i with
    | zero =>
      cases k with
      | zero => simp [List.set]
      | succ m =>
        simp only [List.getD_cons_zero, List.getD_cons_succ, List.set]
        exact getD_cons_set_perm xs m x (by simpa using hk)
    | succ n =>
      cases k with
      | zero =>
        simp only [List.getD_cons_zero, List.getD_cons_succ, List.set]
        exact getD_cons_set_perm xs n x (by simpa using hi)
      | succ m =>
        simp only [List.getD_cons_succ, List.set]
        exact (ih n m (by simpa using hi) (by simpa using hk)).cons x

/-! ### Characterizations of the record search -/

theorem findAchIdx_eq_none {l : List Achievement} {id : Nat} :
    findAchIdx l id = none ↔ ∀ a ∈ l, a.achievement_id ≠ id := by
  induction l with
  | nil => simp [findAchIdx]
  | cons a r ih =>
    by_cases h : a.achievement_id = id
    · simp [findAchIdx, h]
    · simp only [findAchIdx, if_neg h, Option.map_eq_none', ih, List.mem_cons]
      constructor
      · rintro hr b (rfl | hb)
        · exact h
        · exact hr b hb
      · intro hr b hb
        exact hr b (Or.inr hb)

theorem findAchIdx_some {l : List Achievement} {id : Nat} {i : Nat}
    (h : findAchIdx l id = some i) :
    i < l.length ∧ (l.getD i default).achievement_id = id := by
  induction l generalizing i with
  | nil => simp [findAchIdx] at h
  | cons a r ih =>
    by_cases ha : a.achievement_id = id
    · rw [findAchIdx, if_pos ha] at h
      cases h
      simpa using ha
    · rw [findAchIdx, if_neg ha] at h
      cases hr : findAchIdx r id with
      | none => rw [hr] at h; cases h
      | some j =>
        rw [hr] at h
        cases h
        have := ih hr
        constructor
        · simpa using this.1
        · simpa using this.2

theorem hasRec_iff_findAchIdx (st : AchievementData) (id : Nat) :
    hasRec st id ↔ findAchIdx st.achievements id ≠ none := by
  unfold hasRec
  rw [Ne, findAchIdx_eq_none]
  push_neg
  rfl

theorem findAchIdx_nodup {l : List Achievement} {id : Nat} {a : Achievement}
    (hnd : (l.map (fun x => x.achievement_id)).Nodup)
    (ha : a ∈ l) (hid : a.achievement_id = id) :
    ∃ i, findAchIdx l id = some i ∧ i < l.length ∧ l.getD i default = a := by
  induction l with
  | nil => simp at ha
  | cons b r ih =>
    simp only [List.map_cons, List.nodup_cons] at hnd
    rcases List.mem_cons.mp ha with rfl | har
    · exact ⟨0, by rw [findAchIdx, if_pos hid], by simp, by simp⟩
    · have hb : b.achievement_id ≠ id := by
        intro hbid
        exact hnd.1 (hbid ▸ hid ▸ List.mem_map_of_mem _ har)
      obtain ⟨i, h1, h2, h3⟩ := ih hnd.2 har
      exact ⟨i + 1, by rw [findAchIdx, if_neg hb, h1]; rfl, by simpa using h2,
        by simpa using h3⟩

/-! ### The invariants of the spec -/



theorem totalScoreOf_perm {l₁ l₂ : List Achievement} (h : l₁.Perm l₂) :
    totalScoreOf l₁ = totalScoreOf l₂ :=
  (h.map _).sum_eq

theorem totalScoreOf_append (l₁ l₂ : List Achievement) :
    totalScoreOf (l₁ ++ l₂) = totalScoreOf l₁ + totalScoreOf l₂ := by
  simp [totalScoreOf]

theorem totalScoreOf_cons (a : Achievement) (l : List Achievement) :
    totalScoreOf (a :: l) =
      (if 0 < a.completed then a.score else 0) + totalScoreOf l := by
  simp [totalScoreOf]

theorem drop_eq_getD_cons {l : List α} [Inhabited α] {i : Nat}
    (h : i < l.length) : l.drop i = l.getD i default :: l.drop (i + 1) := by
  induction l generalizing i with
  | nil => simp at h
  | cons x xs ih =>
    cases i with
    | zero => simp
    | succ n =>
      simp only [List.drop, List.getD_cons_succ]
      exact ih (by simpa using h)

theorem length_removeAt {l : List α} {i : Nat} (h : i < l.length) :
    (removeAt l i).length = l.length - 1 := by
  unfold removeAt
  simp [List.length_take]
  omega

theorem totalScoreOf_removeAt {l : List Achievement} {i : Nat}
    (h : i < l.length) (hz : (l.getD i default).completed = 0) :
    totalScoreOf (removeAt l i) = totalScoreOf l := by
  conv_rhs => rw [← List.take_append_drop i l, drop_eq_getD_cons h]
  unfold removeAt
  rw [totalScoreOf_append, totalScoreOf_append, totalScoreOf_cons, hz]
  simp


/-! ### Lemmas about achievement_add and achievement_remove -/



theorem achievement_add_eq {env : Env} {st : AchievementData} {id : Nat}
    {st' : AchievementData} (h : achievement_add env st id = some st') :
    ∃ adb, dbFind env.db id = some adb ∧ findAchIdx st.achievements id = none ∧
      st'.achievements = insertAt st.achievements st.incompleteCount
        (newRecord id adb.score) ∧
      st'.incompleteCount = st.incompleteCount + 1 ∧
      st'.total_score = st.total_score ∧ st'.level = st.level := by
  unfold achievement_add at h
  cases hdb : dbFind env.db id with
  | none => rw [hdb] at h; cases h
  | some adb =>
    rw [hdb] at h
    cases hf : findAchIdx st.achievements id with
    | some j => rw [hf] at h; cases h
    | none =>
      rw [hf] at h
      simp only [Option.some_inj] at h
      subst h
      exact ⟨adb, rfl, rfl, rfl, rfl, rfl, rfl⟩

theorem achievement_add_inv {env : Env} {st : AchievementData} {id : Nat}
    {st' : AchievementData} (hInv : StoreInv st)
    (h : achievement_add env st id = some st') : StoreInv st' := by
  obtain ⟨adb, hdb, hf, hach, hinc, -, -⟩ := achievement_add_eq h
  obtain ⟨hle, hpart, hnd⟩ := hInv
  unfold StoreInv
  rw [hach, hinc, length_insertAt]
  refine ⟨by omega, ?_, ?_⟩
  · intro j hj
    rw [getD_insertAt _ _ _ _ _ hle]
    by_cases h1 : j < st.incompleteCount
    · rw [if_pos h1]
      have h2 := (hpart j (by omega)).mpr h1
      constructor
      · intro _; omega
      · intro _; exact h2
    · rw [if_neg h1]
      by_cases h2 : j = st.incompleteCount
      · rw [if_pos h2]
        constructor
        · intro _; omega
        · intro _; rfl
      · rw [if_neg h2]
        have h3 := hpart (j - 1) (by omega)
        constructor
        · intro hz
          have := h3.mp hz
          omega
        · intro hlt
          omega
  · rw [map_insertAt]
    simp only [newRecord]
    have hperm := insertAt_perm (st.achievements.map (fun a => a.achievement_id))
      st.incompleteCount id
    rw [hperm.nodup_iff, List.nodup_cons]
    refine ⟨?_, hnd⟩
    intro hmem
    obtain ⟨a, ha, haid⟩ := List.mem_map.mp hmem
    exact (findAchIdx_eq_none.mp hf a ha) haid

theorem achievement_add_mem {env : Env} {st : AchievementData} {id : Nat}
    {st' : AchievementData} (h : achievement_add env st id = some st') :
    ∀ a ∈ st.achievements, a ∈ st'.achievements := by
  obtain ⟨adb, -, -, hach, -, -, -⟩ := achievement_add_eq h
  intro a ha
  rw [hach]
  exact (mem_insertAt _ _ _ _).mpr (Or.inr ha)

theorem achievement_add_hasRec {env : Env} {st : AchievementData} {id : Nat}
    {st' : AchievementData} (h : achievement_add env st id = some st') (x : Nat) :
    hasRec st' x ↔ x = id ∨ hasRec st x := by
  obtain ⟨adb, -, -, hach, -, -, -⟩ := achievement_add_eq h
  unfold hasRec
  rw [hach]
  constructor
  · rintro ⟨a, ha, rfl⟩
    rcases (mem_insertAt _ _ _ _).mp ha with rfl | ha'
    · exact Or.inl rfl
    · exact Or.inr ⟨a, ha', rfl⟩
  · rintro (rfl | ⟨a, ha, rfl⟩)
    · exact ⟨_, (mem_insertAt _ _ _ _).mpr (Or.inl rfl), rfl⟩
    · exact ⟨a, (mem_insertAt _ _ _ _).mpr (Or.inr ha), rfl⟩

theorem achievement_add_not_hasRec {env : Env} {st : AchievementData} {id : Nat}
    {st' : AchievementData} (h : achievement_add env st id = some st') :
    ¬ hasRec st id := by
  obtain ⟨adb, -, hf, -, -, -, -⟩ := achievement_add_eq h
  rintro ⟨a, ha, haid⟩
  exact (findAchIdx_eq_none.mp hf a ha) haid

theorem achievement_add_scoreInv {env : Env} {st : AchievementData} {id : Nat}
    {st' : AchievementData} (hs : scoreInv st)
    (h : achievement_add env st id = some st') : scoreInv st' := by
  obtain ⟨adb, -, -, hach, -, hts, -⟩ := achievement_add_eq h
  unfold scoreInv at hs ⊢
  rw [hts, hach, totalScoreOf_perm (insertAt_perm _ _ _), totalScoreOf_cons]
  simpa [newRecord] using hs

theorem achievement_remove_eq {env : Env} {st : AchievementData} {id : Nat}
    {st' : AchievementData} (h : achievement_remove env st id = some st') :
    ∃ i, findAchIdx st.achievements id = some i ∧
      st'.achievements = removeAt st.achievements i ∧
      st'.incompleteCount =
        (if (getAch st i).completed = 0 then st.incompleteCount - 1
         else st.incompleteCount) ∧
      st'.total_score = st.total_score ∧ st'.level = st.level := by
  unfold achievement_remove at h
  cases hdb : dbFind env.db id with
  | none => rw [hdb] at h; cases h
  | some adb =>
    rw [hdb] at h
    cases hf : findAchIdx st.achievements id with
    | none => rw [hf] at h; cases h
    | some i =>
      rw [hf] at h
      simp only [Option.some_inj] at h
      subst h
      exact ⟨i, rfl, rfl, rfl, rfl, rfl⟩

theorem achievement_remove_inv {env : Env} {st : AchievementData} {id : Nat}
    {st' : AchievementData} (hInv : StoreInv st)
    (h : achievement_remove env st id = some st') : StoreInv st' := by
  obtain ⟨i, hf, hach, hinc, -, -⟩ := achievement_remove_eq h
  obtain ⟨hle, hpart, hnd⟩ := hInv
  obtain ⟨hilen, -⟩ := findAchIdx_some hf
  have hnd' : (st'.achievements.map (fun a => a.achievement_id)).Nodup := by
    rw [hach]
    have hmr : (removeAt st.achievements i).map (fun a => a.achievement_id) =
        removeAt (st.achievements.map (fun a => a.achievement_id)) i := by
      unfold removeAt
      simp [List.map_take, List.map_drop]
    rw [hmr]
    exact (removeAt_sublist _ _).nodup hnd
  unfold StoreInv
  rw [hach, hinc, length_removeAt hilen]
  by_cases hz : (getAch st i).completed = 0
  · have hi_inc : i < st.incompleteCount := (hpart i hilen).mp hz
    rw [if_pos hz]
    refine ⟨by omega, ?_, by rw [← hach]; exact hnd'⟩
    intro j hj
    rw [getD_removeAt]
    by_cases h1 : j < i
    · rw [if_pos h1]
      have h2 := hpart j (by omega)
      constructor
      · intro hzz; have := h2.mp hzz; omega
      · intro _; exact h2.mpr (by omega)
    · rw [if_neg h1]
      have h2 := hpart (j + 1) (by omega)
      constructor
      · intro hzz; have := h2.mp hzz; omega
      · intro hlt; exact h2.mpr (by omega)
  · have hi_inc : ¬ i < st.incompleteCount := fun hmem =>
      hz ((hpart i hilen).mpr hmem)
    rw [if_neg hz]
    refine ⟨by omega, ?_, by rw [← hach]; exact hnd'⟩
    intro j hj
    rw [getD_removeAt]
    by_cases h1 : j < i
    · rw [if_pos h1]
      exact hpart j (by omega)
    · rw [if_neg h1]
      have h2 := hpart (j + 1) (by omega)
      constructor
      · intro hzz; have := h2.mp hzz; omega
      · intro hlt; exact h2.mpr (by omega)

theorem achievement_remove_scoreInv {env : Env} {st : AchievementData} {id : Nat}
    {st' : AchievementData} {i : Nat} (hs : scoreInv st)
    (hf : findAchIdx st.achievements id = some i)
    (hz : (getAch st i).completed = 0)
    (h : achievement_remove env st id = some st') : scoreInv st' := by
  obtain ⟨i', hf', hach, -, hts, -⟩ := achievement_remove_eq h
  rw [hf] at hf'
  cases hf'
  unfold scoreInv at hs ⊢
  rw [hts, hach, totalScoreOf_removeAt (findAchIdx_some hf).1 hz]
  exact hs

/-! ### Membership and pointwise lemmas for record mutation -/

theorem getD_mem_of_lt {l : List α} {j : Nat} (d : α) (h : j < l.length) :
    l.getD j d ∈ l := by
  induction l generalizing j with
  | nil => simp at h
  | cons x xs ih =>
    cases j with
    | zero => simp
    | succ n =>
      rw [List.getD_cons_succ]
      exact List.mem_cons_of_mem x (ih (by simpa using h))

theorem mem_exists_getD [Inhabited α] {l : List α} {b : α} (h : b ∈ l) :
    ∃ j, j < l.length ∧ l.getD j default = b := by
  induction l with
  | nil => simp at h
  | cons x xs ih =>
    rcases List.mem_cons.mp h with rfl | hx
    · exact ⟨0, by simp, by simp⟩
    · obtain ⟨j, hj, hg⟩ := ih hx
      exact ⟨j + 1, by simpa using hj, by simpa using hg⟩

theorem hasRec_iff_mem_map (st : AchievementData) (x : Nat) :
    hasRec st x ↔ x ∈ st.achievements.map (fun a => a.achievement_id) := by
  unfold hasRec
  rw [List.mem_map]

theorem map_set_self_of_eq {l : List α} [Inhabited α] {i : Nat} {a : α}
    {f : α → β} (hfe : f a = f (l.getD i default)) :
    (l.set i a).map f = l.map f := by
  by_cases hi : i < l.length
  · rw [List.map_set, hfe]
    have hg : f (l.getD i default) = (l.map f).getD i (f default) :=
      (List.getD_map l default f).symm
    rw [hg]
    exact set_getD_self _ _ _ (by simpa using hi)
  · rw [List.set_eq_of_length_le (by omega)]

/-- setCountAt only changes the counter array of the record at `i`. -/
theorem setCountAt_fields (st : AchievementData) (i : Nat) (c : List Nat) :
    (setCountAt st i c).incompleteCount = st.incompleteCount ∧
    (setCountAt st i c).total_score = st.total_score ∧
    (setCountAt st i c).achievements.length = st.achievements.length :=
  ⟨rfl, rfl, by simp [setCountAt]⟩

theorem setCountAt_getD_completed (st : AchievementData) (i : Nat) (c : List Nat)
    (j : Nat) :
    (((setCountAt st i c).achievements.getD j default)).completed =
      ((st.achievements.getD j default)).completed := by
  unfold setCountAt
  rw [getD_set]
  by_cases h : i = j ∧ j < st.achievements.length
  · rw [if_pos h]
    obtain ⟨rfl, -⟩ := h
    rfl
  · rw [if_neg h]

theorem setCountAt_map_ids (st : AchievementData) (i : Nat) (c : List Nat) :
    (setCountAt st i c).achievements.map (fun a => a.achievement_id) =
      st.achievements.map (fun a => a.achievement_id) := by
  unfold setCountAt
  exact map_set_self_of_eq rfl

theorem setCountAt_inv {st : AchievementData} {i : Nat} {c : List Nat}
    (hInv : StoreInv st) : StoreInv (setCountAt st i c) := by
  obtain ⟨hle, hpart, hnd⟩ := hInv
  obtain ⟨hinc, -, hlen⟩ := setCountAt_fields st i c
  refine ⟨by rw [hinc, hlen]; exact hle, ?_, ?_⟩
  · intro j hj
    rw [hinc, setCountAt_getD_completed]
    exact hpart j (by rwa [hlen] at hj)
  · rw [setCountAt_map_ids]
    exact hnd

theorem setCountAt_achievements (st : AchievementData) (i : Nat) (c : List Nat) :
    (setCountAt st i c).achievements =
      st.achievements.set i { getAch st i with count := c } := rfl

theorem setCountAt_scoreInv {st : AchievementData} {i : Nat} {c : List Nat}
    (hs : scoreInv st) : scoreInv (setCountAt st i c) := by
  unfold scoreInv at hs ⊢
  rw [setCountAt_achievements,
    show (setCountAt st i c).total_score = st.total_score from rfl]
  unfold totalScoreOf at hs ⊢
  rw [@map_set_self_of_eq Achievement Nat st.achievements _ i
    { getAch st i with count := c }
    (fun a => if 0 < a.completed then a.score else 0) rfl]
  exact hs

theorem setCountAt_mem_completed {st : AchievementData} {i : Nat} {c : List Nat}
    (hz : (getAch st i).completed = 0) :
    ∀ b ∈ st.achievements, 0 < b.completed → b ∈ (setCountAt st i c).achievements := by
  intro b hb hbc
  obtain ⟨j, hj, hg⟩ := mem_exists_getD hb
  have hij : i ≠ j := by
    rintro rfl
    rw [show getAch st i = b from hg] at hz
    omega
  have : (setCountAt st i c).achievements.getD j default = b := by
    unfold setCountAt
    rw [getD_set, if_neg (by tauto)]
    exact hg
  rw [← this]
  apply getD_mem_of_lt
  rw [(setCountAt_fields st i c).2.2]
  exact hj

theorem setCountAt_hasRec (st : AchievementData) (i : Nat) (c : List Nat)
    (x : Nat) : hasRec (setCountAt st i c) x ↔ hasRec st x := by
  rw [hasRec_iff_mem_map, hasRec_iff_mem_map, setCountAt_map_ids]

/-! ### Lemmas about completeCore -/

theorem completeCore_fields (env : Env) (st : AchievementData) (i : Nat)
    (adb : AchievementDef) :
    (completeCore env st i adb).incompleteCount = st.incompleteCount - 1 ∧
    (completeCore env st i adb).total_score = st.total_score ∧
    (completeCore env st i adb).level = st.level :=
  ⟨rfl, rfl, rfl⟩

theorem completeCore_achievements (env : Env) (st : AchievementData) (i : Nat)
    (adb : AchievementDef) :
    (completeCore env st i adb).achievements =
      (if i < st.incompleteCount - 1 then
        listSwap (st.achievements.set i (completedRec env st i adb)) i
          (st.incompleteCount - 1)
      else st.achievements.set i (completedRec env st i adb)) := rfl

theorem completeCore_achievements_perm (env : Env) {st : AchievementData}
    {i : Nat} (adb : AchievementDef) (hi : i < st.achievements.length)
    (hle : st.incompleteCount ≤ st.achievements.length) :
    ((completeCore env st i adb).achievements).Perm
      (st.achievements.set i (completedRec env st i adb)) := by
  rw [completeCore_achievements]
  by_cases hk1 : i < st.incompleteCount - 1
  · rw [if_pos hk1]
    refine listSwap_perm _ _ _ ?_ ?_
    · simpa using hi
    · simp only [List.length_set]
      omega
  · rw [if_neg hk1]

theorem completedRec_completed (env : Env) (st : AchievementData) (i : Nat)
    (adb : AchievementDef) :
    (completedRec env st i adb).completed = env.now := rfl

theorem completedRec_id (env : Env) (st : AchievementData) (i : Nat)
    (adb : AchievementDef) :
    (completedRec env st i adb).achievement_id = (getAch st i).achievement_id := rfl

theorem getD_listSwap [Inhabited α] (l : List α) (i k j : Nat)
    (hi : i < l.length) (hk : k < l.length) :
    (listSwap l i k).getD j default =
      if k = j then l.getD i default
      else if i = j then l.getD k default
      else l.getD j default := by
  unfold listSwap
  rw [getD_set]
  simp only [List.length_set]
  by_cases h1 : k = j
  · rw [if_pos ⟨h1, by omega⟩, if_pos h1]
  · rw [if_neg (by tauto), getD_set]
    by_cases h2 : i = j
    · rw [if_pos ⟨h2, by omega⟩, if_neg h1, if_pos h2]
    · rw [if_neg (by tauto), if_neg h1, if_neg h2]

theorem completeCore_length (env : Env) (st : AchievementData) (i : Nat)
    (adb : AchievementDef) :
    (completeCore env st i adb).achievements.length = st.achievements.length := by
  rw [completeCore_achievements]
  by_cases h : i < st.incompleteCount - 1
  · rw [if_pos h, length_listSwap, List.length_set]
  · rw [if_neg h, List.length_set]

theorem completeCore_map_ids {env : Env} {st : AchievementData} {i : Nat}
    (adb : AchievementDef) (hi : i < st.achievements.length)
    (hle : st.incompleteCount ≤ st.achievements.length) :
    ((completeCore env st i adb).achievements.map (fun a => a.achievement_id)).Perm
      (st.achievements.map (fun a => a.achievement_id)) := by
  have hperm := (completeCore_achievements_perm env adb hi hle).map
    (fun a => a.achievement_id)
  have heq : (st.achievements.set i (completedRec env st i adb)).map
      (fun a => a.achievement_id) =
      st.achievements.map (fun a => a.achievement_id) :=
    map_set_self_of_eq (completedRec_id env st i adb)
  rwa [heq] at hperm

theorem completeCore_hasRec {env : Env} {st : AchievementData} {i : Nat}
    (adb : AchievementDef) (hi : i < st.achievements.length)
    (hle : st.incompleteCount ≤ st.achievements.length) (x : Nat) :
    hasRec (completeCore env st i adb) x ↔ hasRec st x := by
  rw [hasRec_iff_mem_map, hasRec_iff_mem_map]
  exact (completeCore_map_ids adb hi hle).mem_iff

theorem completeCore_mem_completed {env : Env} {st : AchievementData} {i : Nat}
    (adb : AchievementDef) (hi : i < st.achievements.length)
    (hle : st.incompleteCount ≤ st.achievements.length)
    (hz : (getAch st i).completed = 0) :
    ∀ b ∈ st.achievements, 0 < b.completed →
      b ∈ (completeCore env st i adb).achievements := by
  intro b hb hbc
  rw [(completeCore_achievements_perm env adb hi hle).mem_iff]
  obtain ⟨j, hj, hg⟩ := mem_exists_getD hb
  have hij : i ≠ j := by
    rintro rfl
    rw [show getAch st i = b from hg] at hz
    omega
  have hget : (st.achievements.set i (completedRec env st i adb)).getD j default = b := by
    rw [getD_set, if_neg (by tauto)]
    exact hg
  rw [← hget]
  apply getD_mem_of_lt
  rw [List.length_set]
  exact hj

theorem completeCore_rec_mem {env : Env} {st : AchievementData} {i : Nat}
    (adb : AchievementDef) (hi : i < st.achievements.length)
    (hle : st.incompleteCount ≤ st.achievements.length) :
    completedRec env st i adb ∈ (completeCore env st i adb).achievements := by
  rw [(completeCore_achievements_perm env adb hi hle).mem_iff]
  have hget : (st.achievements.set i (completedRec env st i adb)).getD i default =
      completedRec env st i adb := by
    rw [getD_set, if_pos ⟨rfl, hi⟩]
  have hmem := getD_mem_of_lt (l := st.achievements.set i (completedRec env st i adb))
    default (by rw [List.length_set]; exact hi)
  rwa [hget] at hmem


theorem completeCore_inv {env : Env} {st : AchievementData} {i : Nat}
    {adb : AchievementDef} (hInv : StoreInv st) (hnow : 0 < env.now)
    (hi : i < st.incompleteCount) (hz : (getAch st i).completed = 0) :
    StoreInv (completeCore env st i adb) := by
  obtain ⟨hle, hpart, hnd⟩ := hInv
  have hilen : i < st.achievements.length := by omega
  refine ⟨?_, ?_, ?_⟩
  · rw [completeCore_length, (completeCore_fields env st i adb).1]
    omega
  · intro j hj
    rw [completeCore_length] at hj
    rw [(completeCore_fields env st i adb).1, completeCore_achievements]
    by_cases hk1 : i < st.incompleteCount - 1
    · rw [if_pos hk1]
      rw [getD_listSwap (st.achievements.set i (completedRec env st i adb)) i
        (st.incompleteCount - 1) j (by simp only [List.length_set]; omega)
        (by simp only [List.length_set]; omega)]
      by_cases h1 : st.incompleteCount - 1 = j
      · rw [if_pos h1, getD_set, if_pos ⟨rfl, hilen⟩, completedRec_completed]
        constructor
        · intro hzz; omega
        · intro hlt; omega
      · rw [if_neg h1]
        by_cases h2 : i = j
        · rw [if_pos h2, getD_set, if_neg (by omega)]
          exact iff_of_true ((hpart (st.incompleteCount - 1) (by omega)).mpr
            (by omega)) (by omega)
        · rw [if_neg h2, getD_set, if_neg (by tauto)]
          have h5 := hpart j hj
          constructor
          · intro hzz; have := h5.mp hzz; omega
          · intro hlt; exact h5.mpr (by omega)
    · rw [if_neg hk1, getD_set]
      by_cases h2 : i = j ∧ j < st.achievements.length
      · rw [if_pos h2, completedRec_completed]
        obtain ⟨rfl, -⟩ := h2
        constructor
        · intro hzz; omega
        · intro hlt; omega
      · rw [if_neg h2]
        have hij : i ≠ j := fun h => h2 ⟨h, hj⟩
        have h5 := hpart j hj
        constructor
        · intro hzz; have := h5.mp hzz; omega
        · intro hlt; exact h5.mpr (by omega)
  · exact (completeCore_map_ids adb hilen hle).nodup_iff.mpr hnd

/-! ### Lemmas about the prefix search and id lookup -/

theorem findAchIdx_take {l : List Achievement} {id : Nat} {i : Nat}
    (h : findAchIdx l id = some i) (bound : Nat) (hib : i < bound) :
    findAchIdx (l.take bound) id = some i := by
  induction l generalizing i bound with
  | nil => simp [findAchIdx] at h
  | cons a r ih =>
    cases bound with
    | zero => omega
    | succ b =>
      rw [List.take]
      by_cases ha : a.achievement_id = id
      · rw [findAchIdx, if_pos ha] at h ⊢
        exact h
      · rw [findAchIdx, if_neg ha] at h ⊢
        cases hr : findAchIdx r id with
        | none => rw [hr] at h; cases h
        | some j =>
          rw [hr] at h
          simp only [Option.map_some', Option.some_inj] at h
          subst h
          rw [ih hr b (by omega)]
          rfl

theorem findAchIdx_of_take {l : List Achievement} {bound : Nat} {id : Nat}
    {i : Nat} (h : findAchIdx (l.take bound) id = some i) :
    findAchIdx l id = some i := by
  induction l generalizing i bound with
  | nil => rw [List.take_nil] at h; exact h
  | cons a r ih =>
    cases bound with
    | zero => simp [findAchIdx] at h
    | succ b =>
      rw [List.take] at h
      by_cases ha : a.achievement_id = id
      · rw [findAchIdx, if_pos ha] at h ⊢
        exact h
      · rw [findAchIdx, if_neg ha] at h ⊢
        cases hr : findAchIdx (r.take b) id with
        | none => rw [hr] at h; cases h
        | some j =>
          rw [hr] at h
          simp only [Option.map_some', Option.some_inj] at h
          subst h
          rw [ih hr]
          rfl

theorem findAchIdxUpTo_some {l : List Achievement} {bound : Nat} {id : Nat}
    {i : Nat} (h : findAchIdxUpTo l bound id = some i) :
    i < bound ∧ findAchIdx l id = some i := by
  unfold findAchIdxUpTo at h
  have h2 := findAchIdx_some h
  have hlen : (l.take bound).length = min bound l.length := by
    simp [List.length_take]
  refine ⟨by omega, findAchIdx_of_take h⟩

theorem findAchIdxUpTo_of_incomplete {st : AchievementData} {id : Nat} {i : Nat}
    (hInv : StoreInv st) (hf : findAchIdx st.achievements id = some i)
    (hz : (getAch st i).completed = 0) :
    findAchIdxUpTo st.achievements st.incompleteCount id = some i := by
  obtain ⟨hle, hpart, hnd⟩ := hInv
  obtain ⟨hilen, -⟩ := findAchIdx_some hf
  exact findAchIdx_take hf _ ((hpart i hilen).mp hz)

theorem lookupRec_eq_of_mem_nodup {st : AchievementData} {a : Achievement}
    {id : Nat} (hnd : (st.achievements.map (fun x => x.achievement_id)).Nodup)
    (ha : a ∈ st.achievements) (hid : a.achievement_id = id) :
    lookupRec st id = some a := by
  obtain ⟨i, h1, h2, h3⟩ := findAchIdx_nodup hnd ha hid
  unfold lookupRec
  rw [h1]
  simp only [Option.map_some', Option.some_inj]
  unfold getAch
  exact h3

theorem lookupRec_some {st : AchievementData} {id : Nat} {a : Achievement}
    (h : lookupRec st id = some a) :
    a ∈ st.achievements ∧ a.achievement_id = id := by
  unfold lookupRec at h
  cases hf : findAchIdx st.achievements id with
  | none => rw [hf] at h; cases h
  | some i =>
    rw [hf] at h
    simp only [Option.map_some', Option.some_inj] at h
    subst h
    obtain ⟨h1, h2⟩ := findAchIdx_some hf
    exact ⟨getD_mem_of_lt default h1, h2⟩

/-! ### The step relation satisfied by the update machinery -/



theorem StepRel.rfl (env : Env) (st : AchievementData) : StepRel env st st [] :=
  ⟨fun _ h => h, fun _ _ _ ha hc => ha, fun h => h, fun _ hp => absurd hp
    (List.not_mem_nil _), fun _ _ _ h => Or.inl h⟩

theorem StepRel.comp {env : Env} {st st1 st2 : AchievementData}
    {tr1 tr2 : Trace} (h1 : StepRel env st st1 tr1)
    (h2 : StepRel env st1 st2 tr2) : StepRel env st st2 (tr1 ++ tr2) := by
  refine ⟨?_, ?_, ?_, ?_, ?_⟩
  · intro hnow hInv
    exact h2.inv hnow (h1.inv hnow hInv)
  · intro hnow hInv a ha hc
    exact h2.frame hnow (h1.inv hnow hInv) a (h1.frame hnow hInv a ha hc) hc
  · intro hs
    exact h2.score (h1.score hs)
  · intro p hp
    rcases List.mem_append.mp hp with hp1 | hp2
    · exact h1.gated p hp1
    · exact h2.gated p hp2
  · intro hnow hInv x hx
    rcases h2.created hnow (h1.inv hnow hInv) x hx with hx1 | ⟨s, hs⟩
    · rcases h1.created hnow hInv x hx1 with hx0 | ⟨s, hs⟩
      · exact Or.inl hx0
      · exact Or.inr ⟨s, List.mem_append.mpr (Or.inl hs)⟩
    · exact Or.inr ⟨s, List.mem_append.mpr (Or.inr hs)⟩

/-- States that agree on records, boundary and total score are
interchangeable in the step relation. -/
theorem StepRel.congr {env : Env} {st sta st' : AchievementData} {tr : Trace}
    (hach : sta.achievements = st.achievements)
    (hinc : sta.incompleteCount = st.incompleteCount)
    (hts : sta.total_score = st.total_score)
    (h : StepRel env sta st' tr) : StepRel env st st' tr := by
  have hInv : StoreInv st → StoreInv sta := by
    intro hi
    unfold StoreInv at hi ⊢
    rw [hach, hinc]
    exact hi
  have hsc : scoreInv st → scoreInv sta := by
    intro hs
    unfold scoreInv at hs ⊢
    rw [hach, hts]
    exact hs
  refine ⟨?_, ?_, ?_, h.gated, ?_⟩
  · intro hnow hi
    exact h.inv hnow (hInv hi)
  · intro hnow hi a ha hc
    exact h.frame hnow (hInv hi) a (by rwa [hach]) hc
  · intro hs
    exact h.score (hsc hs)
  · intro hnow hi x hx
    rcases h.created hnow (hInv hi) x hx with h1 | h2
    · exact Or.inl (by unfold hasRec at h1 ⊢; rwa [hach] at h1)
    · exact Or.inr h2

theorem StepRel_add {env : Env} {st st' : AchievementData} {id : Nat}
    (h : achievement_add env st id = some st')
    (hg : achievement_check_dependent env st id = true) :
    StepRel env st st' [(id, st)] := by
  refine ⟨?_, ?_, ?_, ?_, ?_⟩
  · intro _ hInv
    exact achievement_add_inv hInv h
  · intro _ _ a ha _
    exact achievement_add_mem h a ha
  · intro hs
    exact achievement_add_scoreInv hs h
  · intro p hp
    rcases List.mem_singleton.mp hp with rfl
    exact hg
  · intro _ _ x hx
    rcases (achievement_add_hasRec h x).mp hx with rfl | hx'
    · exact Or.inr ⟨st, List.mem_singleton.mpr rfl⟩
    · exact Or.inl hx'

theorem StepRel_setCountAt {env : Env} {st : AchievementData} {i : Nat}
    {c : List Nat} (hz : (getAch st i).completed = 0) :
    StepRel env st (setCountAt st i c) [] := by
  refine ⟨?_, ?_, ?_, ?_, ?_⟩
  · intro _ hInv
    exact setCountAt_inv hInv
  · intro _ _ a ha hc
    exact setCountAt_mem_completed hz a ha hc
  · intro hs
    exact setCountAt_scoreInv hs
  · intro p hp
    exact absurd hp (List.not_mem_nil _)
  · intro _ _ x hx
    exact Or.inl ((setCountAt_hasRec st i c x).mp hx)

/-- The completion mutation as a step (score consistency is not preserved
here; it is re-established by the level recount that always follows). -/
theorem completeCore_step {env : Env} {st : AchievementData} {i : Nat}
    {adb : AchievementDef} (hilen : i < st.achievements.length)
    (hz : (getAch st i).completed = 0) (hii : i < st.incompleteCount) :
    (0 < env.now → StoreInv st → StoreInv (completeCore env st i adb)) ∧
    (StoreInv st → ∀ a ∈ st.achievements, 0 < a.completed →
      a ∈ (completeCore env st i adb).achievements) ∧
    (StoreInv st → ∀ x, hasRec (completeCore env st i adb) x → hasRec st x) := by
  refine ⟨?_, ?_, ?_⟩
  · intro hnow hInv
    exact completeCore_inv hInv hnow hii hz
  · intro hInv a ha hc
    exact completeCore_mem_completed adb hilen hInv.1 hz a ha hc
  · intro hInv x hx
    exact (completeCore_hasRec adb hilen hInv.1 x).mp hx

theorem scanObjectives_rel {env : Env} {g : AchGroup} {args : List Nat}
    {f : Env → AchievementData → AchievementDef → AchGroup → List Nat →
      Option (AchievementData × Bool × Trace)}
    (hf : ∀ st ad r, f env st ad g args = some r → StepRel env st r.1 r.2.2) :
    ∀ (ds : List AchievementDef) (st : AchievementData)
      (r : AchievementData × Trace),
      scanObjectives f env g args st ds = some r → StepRel env st r.1 r.2 := by
  intro ds
  induction ds with
  | nil =>
    intro st r h
    rw [scanObjectives] at h
    cases h
    exact StepRel.rfl env st
  | cons d rest ih =>
    intro st r h
    rw [scanObjectives] at h
    split at h
    · simp at h
    · rename_i st1 b1 tr1 hstep
      split at h
      · simp at h
      · rename_i st2 tr2 hrest
        cases h
        exact (hf st d (st1, b1, tr1) hstep).comp (ih st1 (st2, tr2) hrest)

theorem scanGroups_rel {env : Env}
    {f : Env → AchievementData → AchievementDef →
      Option (AchievementData × Trace)}
    (hf : ∀ st ad r, f env st ad = some r → StepRel env st r.1 r.2) :
    ∀ (ds : List AchievementDef) (st : AchievementData)
      (r : AchievementData × Trace),
      scanGroups f env st ds = some r → StepRel env st r.1 r.2 := by
  intro ds
  induction ds with
  | nil =>
    intro st r h
    rw [scanGroups] at h
    cases h
    exact StepRel.rfl env st
  | cons d rest ih =>
    intro st r h
    rw [scanGroups] at h
    split at h
    · simp at h
    · rename_i st1 tr1 hstep
      split at h
      · simp at h
      · rename_i st2 tr2 hrest
        cases h
        exact (hf st d (st1, tr1) hstep).comp (ih st1 (st2, tr2) hrest)

/-! ### Every engine layer satisfies the step relation -/



theorem StepRel_save (env : Env) (st : AchievementData) :
    StepRel env st { st with save := true } [] :=
  ⟨fun _ hi => hi, fun _ _ a ha _ => ha, fun hs => hs,
   fun _ hp => absurd hp (List.not_mem_nil _), fun _ _ _ hx => Or.inl hx⟩

theorem levelF_rel {env : Env} {e : Engine} (he : EngineOK env e) :
    ∀ st flag r, levelF e env st flag = some r →
      StepRel env st r.1 r.2.2.2 ∧ scoreInv r.1 := by
  intro st flag r h
  simp only [levelF] at h
  split at h
  · simp at h
  · rename_i newLevel left right hwalk
    split at h
    · split at h
      · simp at h
      · rename_i st2 tr hupd
        cases h
        have hstep := he.objective _ _ _ _ hupd
        have hsc1 : scoreInv { st with
            total_score := totalScoreOf st.achievements, level := newLevel } := rfl
        refine ⟨⟨?_, ?_, ?_, hstep.gated, ?_⟩, ?_⟩
        · intro hnow hInv
          exact hstep.inv hnow hInv
        · intro hnow hInv a ha hc
          exact hstep.frame hnow hInv a ha hc
        · intro _
          exact hstep.score hsc1
        · intro hnow hInv x hx
          exact hstep.created hnow hInv x hx
        · exact hstep.score hsc1
    · cases h
      refine ⟨⟨?_, ?_, ?_, ?_, ?_⟩, rfl⟩
      · intro _ hi
        exact hi
      · intro _ _ a ha _
        exact ha
      · intro _
        rfl
      · intro p hp
        exact absurd hp (List.not_mem_nil _)
      · intro _ _ x hx
        exact Or.inl hx

theorem updObjectiveF_rel {env : Env} {e : Engine} (he : EngineOK env e) :
    ∀ st g args r, updObjectiveF e env st g args = some r →
      StepRel env st r.1 r.2 := by
  intro st g args r h
  simp only [updObjectiveF] at h
  split at h
  · cases h
    exact StepRel.rfl env st
  · split at h
    · cases h
      exact StepRel.rfl env st
    · exact scanObjectives_rel (fun st1 ad1 r1 hh =>
        he.objectives st1 ad1 g (argsToCounts args) r1 hh) env.db st r h

theorem checkGroupsF_rel {env : Env} {e : Engine} (he : EngineOK env e) :
    ∀ st ad r, checkGroupsF e env st ad = some r → StepRel env st r.1 r.2 := by
  intro st ad r h
  simp only [checkGroupsF] at h
  split at h
  · cases h
    exact StepRel.rfl env st
  · split at h
    · cases h
      exact StepRel.rfl env st
    · split at h
      · cases h
        exact StepRel.rfl env st
      · split at h
        · rename_i hdep
          split at h
          · rename_i st1 hadd
            split at h
            · simp at h
            · rename_i st2 b tr hupd
              cases h
              exact (StepRel_add hadd hdep).comp (he.achievement _ _ _ _ hupd)
          · split at h
            · simp at h
            · rename_i st2 b tr hupd
              cases h
              exact he.achievement _ _ _ _ hupd
        · cases h
          exact StepRel.rfl env st

theorem updAchievementF_rel {env : Env} {e : Engine} (he : EngineOK env e) :
    ∀ st id c r, updAchievementF e env st id c = some r →
      StepRel env st r.1 r.2.2 := by
  intro st id c r h
  simp only [updAchievementF] at h
  split at h
  · cases h
    exact StepRel.rfl env st
  · rename_i adb hdb
    split at h
    · cases h
      exact StepRel.rfl env st
    · rename_i i hfind
      split at h
      · cases h
        exact StepRel.rfl env st
      · rename_i hcomp
        split at h
        · -- complete = true
          split at h
          · simp at h
          · rename_i st2 left right tr1 hlev
            split at h
            · simp at h
            · rename_i st3 tr2 hscan
              cases h
              have hii : i < st.incompleteCount ∧
                  findAchIdx st.achievements id = some i :=
                findAchIdxUpTo_some hfind
              have hilen : i < st.achievements.length :=
                (findAchIdx_some hii.2).1
              have hz : (getAch st i).completed = 0 := by omega
              have hcore := @completeCore_step env st i adb hilen hz hii.1
              have hl := he.level _ _ _ hlev
              have hg := scanGroups_rel he.groups env.db st2 (st3, tr2) hscan
              refine ⟨?_, ?_, ?_, ?_, ?_⟩
              · intro hnow hInv
                exact hg.inv hnow (hl.1.inv hnow (hcore.1 hnow hInv))
              · intro hnow hInv a ha hc
                have h1 := hcore.2.1 hInv a ha hc
                have h2 := hl.1.frame hnow (hcore.1 hnow hInv) a h1 hc
                exact hg.frame hnow (hl.1.inv hnow (hcore.1 hnow hInv)) a h2 hc
              · intro _
                exact hg.score hl.2
              · intro p hp
                rcases List.mem_append.mp hp with hp1 | hp2
                · exact hl.1.gated p hp1
                · exact hg.gated p hp2
              · intro hnow hInv x hx
                have hInv1 := hcore.1 hnow hInv
                have hInv2 := hl.1.inv hnow hInv1
                rcases hg.created hnow hInv2 x hx with h1 | ⟨s, hs⟩
                · rcases hl.1.created hnow hInv1 x h1 with h3 | ⟨s, hs⟩
                  · exact Or.inl (hcore.2.2 hInv x h3)
                  · exact Or.inr ⟨s, List.mem_append.mpr (Or.inl hs)⟩
                · exact Or.inr ⟨s, List.mem_append.mpr (Or.inr hs)⟩
        · -- complete = false
          cases h
          exact StepRel_save env st


theorem getAch_add_boundary {env : Env} {st st1 : AchievementData} {id : Nat}
    (h : achievement_add env st id = some st1) :
    (getAch st1 st.incompleteCount).completed = 0 := by
  obtain ⟨adb, -, -, hach, -, -, -⟩ := achievement_add_eq h
  unfold getAch
  rw [hach]
  by_cases hle : st.incompleteCount ≤ st.achievements.length
  · rw [getD_insertAt _ _ _ _ _ hle, if_neg (by omega), if_pos rfl]
    rfl
  · have hlen2 : (insertAt st.achievements st.incompleteCount
        (newRecord id adb.score)).length ≤ st.incompleteCount := by
      rw [length_insertAt]
      omega
    rw [List.getD_eq_default _ _ hlen2]
    rfl

theorem updObjectivesF_rel {env : Env} {e : Engine} (he : EngineOK env e) :
    ∀ st ad g args r, updObjectivesF e env st ad g args = some r →
      StepRel env st r.1 r.2.2 := by
  intro st ad g args r h
  simp only [updObjectivesF] at h
  split at h
  · cases h
    exact StepRel.rfl env st
  · split at h
    · -- record not found (isNew)
      split at h
      · cases h
        exact StepRel.rfl env st
      · rename_i hfound hdep'
        have hdep : achievement_check_dependent env st ad.achievement_id = true := by
          revert hdep'
          by_cases hd : achievement_check_dependent env st ad.achievement_id = true
          · intro _; exact hd
          · intro hdep'; exact absurd (by simpa using hd) hdep'
        split at h
        · cases h
          exact StepRel.rfl env st
        · rename_i cur1 changed complete hstep
          split at h
          · split at h
            · cases h
              exact StepRel.rfl env st
            · rename_i st1 hadd
              split at h
              · split at h
                · simp at h
                · rename_i st3 b tr hupd
                  cases h
                  exact (StepRel_add hadd hdep).comp
                    ((StepRel_setCountAt (getAch_add_boundary hadd)).comp
                      (he.achievement _ _ _ (st3, b, tr) hupd))
              · cases h
                exact StepRel_add hadd hdep
          · cases h
            exact StepRel.rfl env st
    · -- record found
      rename_i i hfound
      split at h
      · cases h
        exact StepRel.rfl env st
      · rename_i hzc
        have hz : (getAch st i).completed = 0 := by omega
        split at h
        · cases h
          exact StepRel.rfl env st
        · rename_i cur1 changed complete hstep
          split at h
          · split at h
            · simp at h
            · rename_i st3 b tr hupd
              cases h
              exact (StepRel_setCountAt hz).comp
                (he.achievement _ _ _ (st3, b, tr) hupd)
          · cases h
            exact StepRel.rfl env st

theorem mkEngineOK {env : Env} {e : Engine} (he : EngineOK env e) :
    EngineOK env (mkEngine e) :=
  ⟨updObjectiveF_rel he, updObjectivesF_rel he, updAchievementF_rel he,
   levelF_rel he, checkGroupsF_rel he⟩

/-- Every layer of the fuel-indexed engine satisfies the step relation. -/
theorem engineOK (env : Env) : ∀ n, EngineOK env (engine n) := by
  intro n
  induction n with
  | zero =>
    refine ⟨?_, ?_, ?_, ?_, ?_⟩
    · intro st g args r h
      exact Option.noConfusion h
    · intro st ad g args r h
      exact Option.noConfusion h
    · intro st id c r h
      exact Option.noConfusion h
    · intro st flag r h
      exact Option.noConfusion h
    · intro st ad r h
      exact Option.noConfusion h
  | succ n ih => exact mkEngineOK ih

theorem achievement_update_objective_rel {fuel : Nat} {env : Env}
    {st : AchievementData} {g : AchGroup} {args : List Nat}
    {r : AchievementData × Trace}
    (h : achievement_update_objective fuel env st g args = some r) :
    StepRel env st r.1 r.2 :=
  (engineOK env fuel).objective st g args r h

theorem achievement_update_objectives_rel {fuel : Nat} {env : Env}
    {st : AchievementData} {ad : AchievementDef} {g : AchGroup}
    {args : List Nat} {r : AchievementData × Bool × Trace}
    (h : achievement_update_objectives fuel env st ad g args = some r) :
    StepRel env st r.1 r.2.2 :=
  (engineOK env fuel).objectives st ad g args r h

theorem achievement_update_achievement_rel {fuel : Nat} {env : Env}
    {st : AchievementData} {id : Nat} {c : Bool}
    {r : AchievementData × Bool × Trace}
    (h : achievement_update_achievement fuel env st id c = some r) :
    StepRel env st r.1 r.2.2 :=
  (engineOK env fuel).achievement st id c r h

theorem achievement_level_rel {fuel : Nat} {env : Env}
    {st : AchievementData} {flag : Bool}
    {r : AchievementData × Int × Int × Trace}
    (h : achievement_level fuel env st flag = some r) :
    StepRel env st r.1 r.2.2.2 ∧ scoreInv r.1 :=
  (engineOK env fuel).level st flag r h

/-! ### The level walk: totality, monotonicity and bounds -/

theorem levelWalkGo_eq (total : Nat) : ∀ (l : List Nat) (lvl prev : Nat),
    l ≠ [] → ∃ left right,
      levelWalkGo total lvl prev l = some (lvl + walkLevelSpec total l, left, right) := by
  intro l
  induction l with
  | nil => intro lvl prev h; exact absurd rfl h
  | cons p rest ih =>
    intro lvl prev _
    by_cases hp : p < total
    · have hsp : walkLevelSpec total (p :: rest) =
          walkLevelSpec total rest + 1 := by
        rw [walkLevelSpec, if_pos hp]
      cases rest with
      | nil =>
        refine ⟨(total : Int) - (p : Int), 0, ?_⟩
        rw [levelWalkGo, if_pos hp, hsp]
        rw [List.isEmpty_nil, if_pos rfl]
        rfl
      | cons r rs =>
        obtain ⟨left, right, heq⟩ := ih (lvl + 1) p (List.cons_ne_nil r rs)
        refine ⟨left, right, ?_⟩
        rw [levelWalkGo, if_pos hp, hsp]
        rw [show (r :: rs).isEmpty = false from rfl, if_neg (by simp), heq]
        congr 2
        omega
    · have hsp : walkLevelSpec total (p :: rest) = 0 := by
        rw [walkLevelSpec, if_neg hp]
      by_cases hl : lvl = 0
      · subst hl
        refine ⟨(total : Int), (p : Int), ?_⟩
        rw [levelWalkGo, if_neg hp, if_pos rfl, hsp]
      · refine ⟨(total : Int) - (prev : Int), (p : Int) - (prev : Int), ?_⟩
        rw [levelWalkGo, if_neg hp, if_neg hl, hsp]
        simp

theorem levelWalk_eq (levels : List Nat) (total : Nat) (hne : levels ≠ []) :
    ∃ left right, levelWalk levels total =
      some (walkLevelSpec total levels, left, right) := by
  obtain ⟨left, right, heq⟩ := levelWalkGo_eq total levels 0 0 hne
  refine ⟨left, right, ?_⟩
  rw [levelWalk, heq]
  congr 2
  omega

theorem walkLevelSpec_mono {t1 t2 : Nat} (h : t1 ≤ t2) :
    ∀ l : List Nat, walkLevelSpec t1 l ≤ walkLevelSpec t2 l := by
  intro l
  induction l with
  | nil => exact Nat.le.refl
  | cons p rest ih =>
    rw [walkLevelSpec, walkLevelSpec]
    by_cases h1 : p < t1
    · rw [if_pos h1, if_pos (by omega)]
      omega
    · rw [if_neg h1]
      omega

theorem levelWalkGo_bounds (total : Nat) : ∀ (l : List Nat) (lvl prev : Nat),
    (lvl ≠ 0 → prev < total) →
    ∀ L left right, levelWalkGo total lvl prev l = some (L, left, right) →
      (L = lvl + l.length ∧ right = 0 ∧ 0 < left) ∨
      (L < lvl + l.length ∧ 0 ≤ left ∧ left ≤ right) := by
  intro l
  induction l with
  | nil =>
    intro lvl prev _ L left right h
    rw [levelWalkGo] at h
    cases h
  | cons p rest ih =>
    intro lvl prev hprev L left right h
    rw [levelWalkGo] at h
    by_cases hp : p < total
    · rw [if_pos hp] at h
      cases rest with
      | nil =>
        rw [List.isEmpty_nil, if_pos rfl] at h
        simp only [Option.some_inj, Prod.mk.injEq] at h
        obtain ⟨h1, h2, h3⟩ := h
        left
        simp only [List.length_cons, List.length_nil]
        omega
      | cons r rs =>
        rw [show (r :: rs).isEmpty = false from rfl, if_neg (by simp)] at h
        rcases ih (lvl + 1) p (fun _ => hp) L left right h with
          ⟨h1, h2, h3⟩ | ⟨h1, h2, h3⟩
        · left
          refine ⟨?_, h2, h3⟩
          rw [h1]
          simp [List.length_cons]
          omega
        · right
          refine ⟨?_, h2, h3⟩
          simp only [List.length_cons] at h1 ⊢
          omega
    · rw [if_neg hp] at h
      by_cases hl : lvl = 0
      · rw [if_pos hl] at h
        simp only [Option.some_inj, Prod.mk.injEq] at h
        obtain ⟨h1, h2, h3⟩ := h
        right
        simp only [List.length_cons]
        omega
      · rw [if_neg hl] at h
        simp only [Option.some_inj, Prod.mk.injEq] at h
        obtain ⟨h1, h2, h3⟩ := h
        have hpl := hprev hl
        right
        simp only [List.length_cons]
        omega

/-! ### Exact behaviour of achievement_update_achievement -/

theorem lookupRec_congr {st st' : AchievementData} {id : Nat}
    (h : st'.achievements = st.achievements) :
    lookupRec st' id = lookupRec st id := by
  unfold lookupRec getAch
  rw [h]

theorem upd_achievement_false {fuel : Nat} {env : Env} {st : AchievementData}
    {id : Nat} {r : AchievementData × Bool × Trace}
    (h : achievement_update_achievement fuel env st id false = some r) :
    r.1.achievements = st.achievements ∧
    r.1.incompleteCount = st.incompleteCount ∧
    r.1.total_score = st.total_score ∧ r.2.2 = [] := by
  cases fuel with
  | zero => exact Option.noConfusion h
  | succ n =>
    simp only [achievement_update_achievement, engine, mkEngine,
      updAchievementF] at h
    split at h
    · cases h
      exact ⟨rfl, rfl, rfl, rfl⟩
    · split at h
      · cases h
        exact ⟨rfl, rfl, rfl, rfl⟩
      · split at h
        · cases h
          exact ⟨rfl, rfl, rfl, rfl⟩
        · split at h
          · rename_i hfalse
            exact absurd hfalse (by simp)
          · cases h
            exact ⟨rfl, rfl, rfl, rfl⟩

theorem upd_achievement_complete {fuel : Nat} {env : Env}
    {st : AchievementData} {id : Nat} {r : AchievementData × Bool × Trace}
    {a : Achievement} {adb : AchievementDef}
    (hdb : dbFind env.db id = some adb) (hInv : StoreInv st)
    (hnow : 0 < env.now) (hlook : lookupRec st id = some a)
    (hz : a.completed = 0)
    (h : achievement_update_achievement fuel env st id true = some r) :
    r.2.1 = true ∧ StoreInv r.1 ∧
    lookupRec r.1 id =
      some { a with count := fillTargets adb.targets a.count,
                    completed := env.now } := by
  cases fuel with
  | zero => exact Option.noConfusion h
  | succ n =>
    obtain ⟨i, hf, hai⟩ : ∃ i, findAchIdx st.achievements id = some i ∧
        getAch st i = a := by
      unfold lookupRec at hlook
      cases hf : findAchIdx st.achievements id with
      | none => rw [hf] at hlook; cases hlook
      | some i =>
        rw [hf] at hlook
        simp only [Option.map_some', Option.some_inj] at hlook
        exact ⟨i, rfl, hlook⟩
    have hzi : (getAch st i).completed = 0 := by rw [hai]; exact hz
    have hup : findAchIdxUpTo st.achievements st.incompleteCount id = some i :=
      findAchIdxUpTo_of_incomplete hInv hf hzi
    have hii : i < st.incompleteCount := (findAchIdxUpTo_some hup).1
    have hilen : i < st.achievements.length := (findAchIdx_some hf).1
    have hle : st.incompleteCount ≤ st.achievements.length := hInv.1
    simp only [achievement_update_achievement, engine, mkEngine,
      updAchievementF] at h
    split at h
    · rename_i hdb2
      rw [hdb2] at hdb
      cases hdb
    · rename_i adb2 hdb2
      rw [hdb2] at hdb
      injection hdb with hdbeq
      subst hdbeq
      split at h
      · rename_i hup2
        rw [hup2] at hup
        cases hup
      · rename_i i2 hup2
        rw [hup2] at hup
        injection hup with hupeq
        subst hupeq
        split at h
        · rename_i hzc
          exact absurd hzc (by omega)
        · split at h
          · split at h
            · exact Option.noConfusion h
            · rename_i st2 left right tr1 hlev
              split at h
              · exact Option.noConfusion h
              · rename_i st3 tr2 hscan
                cases h
                have hInv1 : StoreInv (completeCore env st i2 adb2) :=
                  completeCore_inv hInv hnow hii hzi
                have hrel1 := (engineOK env n).level _ _ _ hlev
                have hrel2 := scanGroups_rel (engineOK env n).groups env.db st2
                  (st3, tr2) hscan
                have hInv2 : StoreInv st2 := hrel1.1.inv hnow hInv1
                have hInv3 : StoreInv st3 := hrel2.inv hnow hInv2
                have ha1mem : completedRec env st i2 adb2 ∈
                    (completeCore env st i2 adb2).achievements :=
                  completeCore_rec_mem adb2 hilen hle
                have hcompl : 0 < (completedRec env st i2 adb2).completed := by
                  rw [completedRec_completed]
                  exact hnow
                have ha1mem2 : completedRec env st i2 adb2 ∈ st2.achievements :=
                  hrel1.1.frame hnow hInv1 _ ha1mem hcompl
                have ha1mem3 : completedRec env st i2 adb2 ∈ st3.achievements :=
                  hrel2.frame hnow hInv2 _ ha1mem2 hcompl
                have hid1 : (completedRec env st i2 adb2).achievement_id = id := by
                  rw [completedRec_id, hai]
                  exact (lookupRec_some hlook).2
                have hcr : completedRec env st i2 adb2 =
                    { a with count := fillTargets adb2.targets a.count,
                             completed := env.now } := by
                  unfold completedRec
                  rw [hai]
                refine ⟨rfl, hInv3, ?_⟩
                rw [← hcr]
                exact lookupRec_eq_of_mem_nodup hInv3.2.2 ha1mem3 hid1
          · rename_i hcontra
            exact absurd trivial hcontra

/-- Shared behaviour of `achievement_update_objectives` on an existing
incomplete record once the per-group switch has produced changed counters:
the write-back happens, and the final record is completed exactly when
every objective target is met. -/
theorem upd_objectives_existing {fuel : Nat} {env : Env} {st : AchievementData}
    {ad : AchievementDef} {g : AchGroup} {args : List Nat}
    {r : AchievementData × Bool × Trace} {a : Achievement} {i : Nat}
    {cur1 : List Nat} {adb : AchievementDef}
    (hdb : dbFind env.db ad.achievement_id = some adb)
    (hnow : 0 < env.now) (hInv : StoreInv st)
    (hfind : findAchIdx st.achievements ad.achievement_id = some i)
    (hai : getAch st i = a) (hz : a.completed = 0)
    (hgr : g = ad.group)
    (hstep : objStep env ad g args a.count =
      some (cur1, true, targetsMet ad.targets cur1))
    (h : achievement_update_objectives fuel env st ad g args = some r) :
    r.2.1 = true ∧ ∃ a', lookupRec r.1 ad.achievement_id = some a' ∧
      (0 < a'.completed ↔ targetsMet ad.targets cur1 = true) ∧
      (targetsMet ad.targets cur1 = false → a' = { a with count := cur1 }) := by
  cases fuel with
  | zero => exact Option.noConfusion h
  | succ n =>
    have hai' : st.achievements.getD i default = a := hai
    have hid_a : a.achievement_id = ad.achievement_id := by
      have h2 := (findAchIdx_some hfind).2
      rw [hai'] at h2
      exact h2
    have hilen : i < st.achievements.length := (findAchIdx_some hfind).1
    have hlook2 : lookupRec (setCountAt st i cur1) ad.achievement_id =
        some { a with count := cur1 } := by
      have hmem : ({ a with count := cur1 } : Achievement) ∈
          (setCountAt st i cur1).achievements := by
        rw [setCountAt_achievements, hai]
        have hget : (st.achievements.set i { a with count := cur1 }).getD i
            default = { a with count := cur1 } := by
          rw [getD_set, if_pos ⟨rfl, hilen⟩]
        have hx := getD_mem_of_lt
          (l := st.achievements.set i { a with count := cur1 }) default
          (by rw [List.length_set]; exact hilen)
        rwa [hget] at hx
      exact lookupRec_eq_of_mem_nodup (setCountAt_inv hInv).2.2 hmem hid_a
    simp only [achievement_update_objectives, engine, mkEngine,
      updObjectivesF] at h
    split at h
    · rename_i hne
      exact absurd hgr hne
    · split at h
      · rename_i hf2
        rw [hf2] at hfind
        cases hfind
      · rename_i i2 hf2
        rw [hf2] at hfind
        injection hfind with hieq
        subst hieq
        split at h
        · rename_i hzc
          rw [hai] at hzc
          omega
        · split at h
          · rename_i hstep2
            rw [hai] at hstep2
            rw [hstep2] at hstep
            cases hstep
          · rename_i cur1' ch cmp hstep2
            rw [hai] at hstep2
            rw [hstep2] at hstep
            simp only [Option.some_inj, Prod.mk.injEq] at hstep
            obtain ⟨e1, e2, e3⟩ := hstep
            subst e1
            subst e2
            split at h
            · split at h
              · exact Option.noConfusion h
              · rename_i st3 b tr hupd
                cases h
                cases hmet : targetsMet ad.targets cur1' with
                | true =>
                  rw [hmet] at e3
                  subst e3
                  have hcall : achievement_update_achievement n env
                      (setCountAt st i2 cur1') ad.achievement_id true =
                      some (st3, b, tr) := hupd
                  have hres := upd_achievement_complete hdb
                    (setCountAt_inv hInv) hnow hlook2 hz hcall
                  refine ⟨rfl, ?_⟩
                  refine ⟨_, hres.2.2, ?_, ?_⟩
                  · constructor
                    · intro _; rfl
                    · intro _
                      exact hnow
                  · intro hmf
                    exact Bool.noConfusion hmf
                | false =>
                  rw [hmet] at e3
                  subst e3
                  have hcall : achievement_update_achievement n env
                      (setCountAt st i2 cur1') ad.achievement_id false =
                      some (st3, b, tr) := hupd
                  obtain ⟨hach, -, -, -⟩ := upd_achievement_false hcall
                  refine ⟨rfl, ?_⟩
                  refine ⟨{ a with count := cur1' }, ?_, ?_, fun _ => rfl⟩
                  · rw [show lookupRec (st3, b, tr).1 ad.achievement_id =
                        lookupRec (setCountAt st i2 cur1') ad.achievement_id from
                      lookupRec_congr hach]
                    exact hlook2
                  · constructor
                    · intro hcc
                      exact absurd hcc (by simp [hz])
                    · intro hcc
                      exact Bool.noConfusion hcc
            · rename_i hcontra
              exact absurd rfl hcontra

/-! ### Computation lemmas for the per-group switch -/

theorem objStep_spend_guard_false {env : Env} {ad : AchievementDef}
    {args cur : List Nat} (hok : env.condResult ad.achievement_id = false) :
    objStep env ad .AG_SPEND_ZENY args cur = none := by
  simp [objStep, isConditionGroup, hok]

theorem objStep_spend {env : Env} {ad : AchievementDef} {args cur : List Nat}
    (hne : ad.targets.isEmpty = false) (hcond : ad.hasCondition = true)
    (hok : env.condResult ad.achievement_id = true) :
    objStep env ad .AG_SPEND_ZENY args cur =
      some (spendCounts args ad.targets cur, true,
        targetsMet ad.targets (spendCounts args ad.targets cur)) := by
  simp [objStep, isConditionGroup, hne, hcond, hok]

theorem objStep_battle {env : Env} {ad : AchievementDef} {g : AchGroup}
    {args cur : List Nat} (hg : g = .AG_BATTLE ∨ g = .AG_TAMING)
    (hne : ad.targets.isEmpty = false)
    (hch : (battleCounts (cntGet args 0) ad.targets cur).2 = true) :
    objStep env ad g args cur =
      some ((battleCounts (cntGet args 0) ad.targets cur).1, true,
        targetsMet ad.targets (battleCounts (cntGet args 0) ad.targets cur).1) := by
  rcases hg with rfl | rfl <;> simp [objStep, isConditionGroup, hne, hch]

theorem objStep_battle_nochange {env : Env} {ad : AchievementDef} {g : AchGroup}
    {args cur : List Nat} (hg : g = .AG_BATTLE ∨ g = .AG_TAMING)
    (hch : (battleCounts (cntGet args 0) ad.targets cur).2 = false) :
    objStep env ad g args cur = none := by
  rcases hg with rfl | rfl <;> simp [objStep, isConditionGroup, hch]

/-- When the per-group switch reports failure for both the fresh and the
stored counter array, the whole per-entry update fails with no change. -/
theorem upd_objectives_step_none {fuel : Nat} {env : Env}
    {st : AchievementData} {ad : AchievementDef} {g : AchGroup}
    {args : List Nat} {r : AchievementData × Bool × Trace}
    (hnew : objStep env ad g args
      (List.replicate MAX_ACHIEVEMENT_OBJECTIVES 0) = none)
    (hcur : ∀ i, findAchIdx st.achievements ad.achievement_id = some i →
      objStep env ad g args (getAch st i).count = none)
    (h : achievement_update_objectives fuel env st ad g args = some r) :
    r = (st, false, []) := by
  cases fuel with
  | zero => exact Option.noConfusion h
  | succ n =>
    simp only [achievement_update_objectives, engine, mkEngine,
      updObjectivesF] at h
    split at h
    · cases h
      rfl
    · split at h
      · split at h
        · cases h
          rfl
        · rename_i hfound _
          rw [hnew] at h
          cases h
          rfl
      · rename_i i hfound
        split at h
        · cases h
          rfl
        · rw [hcur i hfound] at h
          cases h
          rfl

/-! ### Pointwise behaviour of the battle/taming counter loop -/

theorem cntGet_cntSet (c : List Nat) (i j v : Nat) :
    cntGet (cntSet c i v) j = if i = j ∧ j < c.length then v else cntGet c j :=
  getD_set c i j v 0

theorem battleCounts_length (mobId : Nat) (targets : List (Nat × AchTarget))
    (cur : List Nat) :
    (battleCounts mobId targets cur).1.length = cur.length := by
  induction targets generalizing cur with
  | nil => rfl
  | cons it rest ih =>
    simp only [battleCounts]
    split
    · show (battleCounts mobId rest (cntSet cur it.1 (cntGet cur it.1 + 1))).1.length =
        cur.length
      rw [ih, cntSet, List.length_set]
    · exact ih cur

/-- Slots whose index is configured in no target keep their value. -/
theorem battleCounts_frame (mobId : Nat) (targets : List (Nat × AchTarget))
    (cur : List Nat) (j : Nat) (hj : j ∉ targets.map Prod.fst) :
    cntGet (battleCounts mobId targets cur).1 j = cntGet cur j := by
  induction targets generalizing cur with
  | nil => rfl
  | cons it rest ih =>
    simp only [List.map_cons, List.mem_cons, not_or] at hj
    simp only [battleCounts]
    split
    · show cntGet (battleCounts mobId rest (cntSet cur it.1 (cntGet cur it.1 + 1))).1 j =
        cntGet cur j
      rw [ih _ hj.2, cntGet_cntSet, if_neg (fun hc => hj.1 hc.1.symm)]
    · exact ih cur hj.2

/-- A slot configured in the target list is incremented by exactly one iff
its monster matches the event and it is still below its requirement. -/
theorem battleCounts_at_key (mobId : Nat) {targets : List (Nat × AchTarget)}
    (cur : List Nat) {j : Nat} {t : AchTarget}
    (hnodup : (targets.map Prod.fst).Nodup)
    (hmem : (j, t) ∈ targets) (hlen : j < cur.length) :
    cntGet (battleCounts mobId targets cur).1 j =
      if t.mob = mobId ∧ cntGet cur j < t.count
      then cntGet cur j + 1 else cntGet cur j := by
  induction targets generalizing cur with
  | nil => exact absurd hmem (List.not_mem_nil _)
  | cons it rest ih =>
    simp only [List.map_cons, List.nodup_cons] at hnodup
    rcases List.mem_cons.mp hmem with heq | hmem'
    · have hj : j = it.1 := by rw [← heq]
      have ht : t = it.2 := by rw [← heq]
      subst hj
      subst ht
      simp only [battleCounts]
      split
      · rename_i hc
        show cntGet (battleCounts mobId rest
            (cntSet cur it.1 (cntGet cur it.1 + 1))).1 it.1 = _
        rw [battleCounts_frame mobId rest _ it.1 hnodup.1, cntGet_cntSet,
          if_pos ⟨rfl, hlen⟩]
      · rename_i hc
        rw [battleCounts_frame mobId rest cur it.1 hnodup.1]
    · have hjmem : j ∈ rest.map Prod.fst := List.mem_map.mpr ⟨(j, t), hmem', rfl⟩
      have hne : it.1 ≠ j := fun h => hnodup.1 (h ▸ hjmem)
      simp only [battleCounts]
      split
      · have hlen' : j < (cntSet cur it.1 (cntGet cur it.1 + 1)).length := by
          simpa only [cntSet, List.length_set] using hlen
        have hcg : cntGet (cntSet cur it.1 (cntGet cur it.1 + 1)) j =
            cntGet cur j := by
          rw [cntGet_cntSet, if_neg (fun hc => hne hc.1)]
        show cntGet (battleCounts mobId rest
            (cntSet cur it.1 (cntGet cur it.1 + 1))).1 j = _
        rw [ih _ hnodup.2 hmem' hlen', hcg]
      · exact ih cur hnodup.2 hmem' hlen

/-- The changed flag is set iff some slot matches the monster and is below
its requirement on entry. -/
theorem battleCounts_changed (mobId : Nat) (targets : List (Nat × AchTarget))
    (cur : List Nat) :
    (battleCounts mobId targets cur).2 = true ↔
      ∃ p ∈ targets, p.2.mob = mobId ∧ cntGet cur p.1 < p.2.count := by
  induction targets generalizing cur with
  | nil => simp [battleCounts]
  | cons it rest ih =>
    simp only [battleCounts]
    split
    · rename_i hc
      exact iff_of_true rfl ⟨it, List.mem_cons_self it rest, hc⟩
    · rename_i hc
      rw [show (battleCounts mobId rest cur).2 = true ↔ _ from ih cur]
      constructor
      · rintro ⟨p, hp, hcond⟩
        exact ⟨p, List.mem_cons_of_mem _ hp, hcond⟩
      · rintro ⟨p, hp, hcond⟩
        rcases List.mem_cons.mp hp with rfl | hp'
        · exact absurd hcond hc
        · exact ⟨p, hp', hcond⟩

/-! ### Preservation of the store invariant by the administrative operations -/

theorem applyOp_inv {fuel : Nat} {env : Env} {st st' : AchievementData}
    {op : AchOp} (hnow : 0 < env.now) (hInv : StoreInv st)
    (h : applyOp fuel env st op = some st') : StoreInv st' := by
  cases op with
  | add id =>
    simp only [applyOp, Option.some_inj] at h
    subst h
    cases hadd : achievement_add env st id with
    | none => exact hInv
    | some st1 => exact achievement_add_inv hInv hadd
  | remove id =>
    simp only [applyOp, Option.some_inj] at h
    subst h
    cases hrem : achievement_remove env st id with
    | none => exact hInv
    | some st1 => exact achievement_remove_inv hInv hrem
  | complete id =>
    cases hu : achievement_update_achievement fuel env st id true with
    | none => rw [applyOp, hu] at h; cases h
    | some r =>
      rw [applyOp, hu] at h
      simp only [Option.map_some', Option.some_inj] at h
      subst h
      exact (achievement_update_achievement_rel hu).inv hnow hInv

theorem applyOps_inv {fuel : Nat} {env : Env} (hnow : 0 < env.now) :
    ∀ (ops : List AchOp) (st st' : AchievementData), StoreInv st →
      applyOps fuel env st ops = some st' → StoreInv st' := by
  intro ops
  induction ops with
  | nil =>
    intro st st' hInv h
    simp only [applyOps, Option.some_inj] at h
    subst h
    exact hInv
  | cons op ops ih =>
    intro st st' hInv h
    simp only [applyOps] at h
    cases hop : applyOp fuel env st op with
    | none => rw [hop] at h; cases h
    | some st1 =>
      rw [hop] at h
      exact ih st1 st' (applyOp_inv hnow hInv hop) h

/-! ### The claims -/

/-- C1 (counterexample): from a fresh player, adding achievement 1,
completing it and then removing its (now completed) record leaves the
cached total score at 10 while the completed records sum to 0, so the
cached total no longer equals the completed partition's score sum:
`achievement_remove` never recomputes `total_score`. -/
theorem c1_counterexample :
    (applyOps 4 envMain initPlayer [.add 1, .complete 1, .remove 1]).map
      (fun st => (st.total_score, totalScoreOf st.achievements,
        decide (scoreInv st))) = some (10, 0, false) := by decide

/-- C1 (amended): the cached total score equals the completed partition's
score sum after any add, after any completion run, and after removing an
*incomplete* record; removing a record never recomputes the cached total,
so removing a completed record breaks the equality by that record's
score. -/
theorem c1_score_consistency_amended (fuel : Nat) (env : Env)
    (st : AchievementData) (hs : scoreInv st) :
    (∀ id st', achievement_add env st id = some st' → scoreInv st') ∧
    (∀ id c r, achievement_update_achievement fuel env st id c = some r →
      scoreInv r.1) ∧
    (∀ id i st', findAchIdx st.achievements id = some i →
      (getAch st i).completed = 0 →
      achievement_remove env st id = some st' → scoreInv st') ∧
    (∀ id st', achievement_remove env st id = some st' →
      st'.total_score = st.total_score) := by
  refine ⟨?_, ?_, ?_, ?_⟩
  · intro id st' h
    exact achievement_add_scoreInv hs h
  · intro id c r h
    exact (achievement_update_achievement_rel h).score hs
  · intro id i st' hf hz h
    exact achievement_remove_scoreInv hs hf hz h
  · intro id st' h
    obtain ⟨i, -, -, -, hts, -⟩ := achievement_remove_eq h
    exact hts

/-- C1 (witness): the amended consistency theorem applied to the player
holding one completed record; removing it keeps the stale cached total. -/
theorem c1_score_consistency_witness :
    scoreInv stC1 ∧
    achievement_remove envMain stC1 1 = some ⟨[], 0, 10, 0, true⟩ ∧
    (⟨[], 0, 10, 0, true⟩ : AchievementData).total_score = stC1.total_score :=
  ⟨by decide, by decide,
    (c1_score_consistency_amended 1 envMain stC1 (by decide)).2.2.2 1
      ⟨[], 0, 10, 0, true⟩ (by decide)⟩

/-- C3: with threshold table `[100, 300]`, a player whose completed
records sum to 250 gets level 1 with progress 150 into the level and 200
points to the next; the walk advances only while the total strictly
exceeds the current threshold (100 stays at level 0, 101 reaches level 1,
300 stays at level 1, 301 pins past the table) and the returned pair is
the delta against the previous level's threshold. -/
theorem c3_level_scenario :
    achievement_level 1 envMain stLvl false =
      some ({ stLvl with total_score := 250, level := 1 }, 150, 200, []) ∧
    totalScoreOf stLvl.achievements = 250 ∧
    levelWalk envMain.levels 250 = some (1, 150, 200) ∧
    levelWalk envMain.levels 100 = some (0, 100, 100) ∧
    levelWalk envMain.levels 101 = some (1, 1, 200) ∧
    levelWalk envMain.levels 300 = some (1, 200, 200) ∧
    levelWalk envMain.levels 301 = some (2, 1, 0) :=
  ⟨by decide, by decide, by decide, by decide, by decide, by decide, by decide⟩

/-- C4: after any sequence of add, remove and completion operations from a
fresh player, the records below `incompleteCount` are exactly those with
completion timestamp 0, the rest exactly those with a nonzero timestamp,
and no achievement id occurs twice. -/
theorem c4_partition_invariant (fuel : Nat) (env : Env) (ops : List AchOp)
    (st : AchievementData) (hnow : 0 < env.now)
    (h : applyOps fuel env initPlayer ops = some st) :
    st.incompleteCount ≤ st.achievements.length ∧
    (∀ j, j < st.achievements.length →
      ((getAch st j).completed = 0 ↔ j < st.incompleteCount)) ∧
    (st.achievements.map (fun a => a.achievement_id)).Nodup :=
  applyOps_inv hnow ops initPlayer st (by decide) h

/-- C4 (witness): the partition invariant at the player obtained by adding
and completing achievement 1 from a fresh player. -/
theorem c4_partition_witness :
    stC1.incompleteCount ≤ stC1.achievements.length ∧
    (∀ j, j < stC1.achievements.length →
      ((getAch stC1 j).completed = 0 ↔ j < stC1.incompleteCount)) ∧
    (stC1.achievements.map (fun a => a.achievement_id)).Nodup :=
  c4_partition_invariant 4 envMain [.add 1, .complete 1] stC1 (by decide)
    (by decide)

/-- C2 (counterexample): at a total exactly equal to a threshold the walk
returns progress equal to points-to-next (100 and 100 at level 0),
violating the claimed strict inequality; and at the pinned maximum level
the pair is (total - last threshold, 0): the right component is zero while
the left is positive, not both zero. -/
theorem c2_counterexample :
    levelWalk [100, 300] 100 = some (0, 100, 100) ∧
    ¬((100 : Int) < 100) ∧
    levelWalk [100, 300] 400 = some (2, 100, 0) ∧
    ¬((100 : Int) = 0) := by decide

/-- C2 (amended): for a fixed threshold table the level of the walk is
monotonic non-decreasing in the total score, and the returned pair
satisfies 0 ≤ progressIntoLevel ≤ pointsToNext (equality possible) below
the maximum level, while at the pinned maximum level pointsToNext is 0 and
progressIntoLevel is strictly positive. -/
theorem c2_level_monotonic_amended (levels : List Nat) (t1 t2 : Nat)
    (L1 L2 : Nat) (p1 p2 : Int × Int) (hle : t1 ≤ t2)
    (h1 : levelWalk levels t1 = some (L1, p1))
    (h2 : levelWalk levels t2 = some (L2, p2)) :
    L1 ≤ L2 ∧
    ((L2 = levels.length ∧ p2.2 = 0 ∧ 0 < p2.1) ∨
     (L2 < levels.length ∧ 0 ≤ p2.1 ∧ p2.1 ≤ p2.2)) := by
  have hb := levelWalkGo_bounds t2 levels 0 0 (fun hh => absurd rfl hh)
    L2 p2.1 p2.2 h2
  have hne : levels ≠ [] := by
    intro he
    subst he
    exact Option.noConfusion h1
  obtain ⟨l1, r1, he1⟩ := levelWalk_eq levels t1 hne
  obtain ⟨l2, r2, he2⟩ := levelWalk_eq levels t2 hne
  rw [he1, Option.some_inj] at h1
  rw [he2, Option.some_inj] at h2
  have hL1 : walkLevelSpec t1 levels = L1 := congrArg Prod.fst h1
  have hL2 : walkLevelSpec t2 levels = L2 := congrArg Prod.fst h2
  constructor
  · rw [← hL1, ← hL2]
    exact walkLevelSpec_mono hle levels
  · rcases hb with ⟨hA, hB, hC⟩ | ⟨hA, hB, hC⟩
    · exact Or.inl ⟨by omega, hB, hC⟩
    · exact Or.inr ⟨by omega, hB, hC⟩

/-- C2 (witness): the amended monotonicity and bounds theorem on the table
[100, 300] at totals 50 and 250. -/
theorem c2_level_monotonic_witness :
    50 ≤ 250 ∧ levelWalk [100, 300] 50 = some (0, 50, 100) ∧
    levelWalk [100, 300] 250 = some (1, 150, 200) ∧
    (0 ≤ 1 ∧
      ((1 = [100, 300].length ∧ (200 : Int) = 0 ∧ 0 < (150 : Int)) ∨
       (1 < [100, 300].length ∧ 0 ≤ (150 : Int) ∧ (150 : Int) ≤ 200))) :=
  ⟨by decide, by decide, by decide,
    c2_level_monotonic_amended [100, 300] 50 250 0 1 (50, 100) (150, 200)
      (by decide) (by decide) (by decide)⟩

/-- C6: no objective-update event ever creates a progress record without
the dependency gate: any achievement id newly present after the event was
recorded in the creation trace together with the state at the moment of
creation, and at that state `achievement_check_dependent` held — in
particular every prerequisite id was completed there. -/
theorem c6_dependency_gating (fuel : Nat) (env : Env) (st : AchievementData)
    (g : AchGroup) (args : List Nat) (r : AchievementData × Trace) (x : Nat)
    (hnow : 0 < env.now) (hInv : StoreInv st)
    (h : achievement_update_objective fuel env st g args = some r)
    (hnew : ¬ hasRec st x) (hr : hasRec r.1 x) :
    ∃ s, (x, s) ∈ r.2 ∧ achievement_check_dependent env s x = true ∧
      ∀ adb, dbFind env.db x = some adb →
        ∀ d ∈ adb.dependent_ids, achievement_done s d = true := by
  have hrel := achievement_update_objective_rel h
  rcases hrel.created hnow hInv x hr with hx | ⟨s, hs⟩
  · exact absurd hx hnew
  · refine ⟨s, hs, hrel.gated (x, s) hs, ?_⟩
    intro adb hadb d hd
    have hg := hrel.gated (x, s) hs
    unfold achievement_check_dependent at hg
    rw [hadb] at hg
    simp only [List.all_eq_true] at hg
    exact hg d hd

/-- C6 (witness): a kill of monster 1002 reported to a fresh player
creates the record of achievement 1; the trace names the creation state
and the gate held there. -/
theorem c6_dependency_gating_witness :
    ∃ s, ((1 : Nat), s) ∈ ([(1, initPlayer)] : Trace) ∧
      achievement_check_dependent envMain s 1 = true ∧
      ∀ adb, dbFind envMain.db 1 = some adb →
        ∀ d ∈ adb.dependent_ids, achievement_done s d = true :=
  c6_dependency_gating 4 envMain initPlayer .AG_BATTLE [1002]
    (⟨[⟨1, [1, 0, 0, 0, 0, 0, 0, 0, 0, 0], 0, 0, 10⟩], 1, 0, 0, true⟩,
      [(1, initPlayer)]) 1
    (by decide) (by decide) (by decide) (by decide) (by decide)

/-- C7: a record with a nonzero completion timestamp is immutable: the
per-entry update returns failure with no state change and no trace, and
across a whole event every completed record survives with all its fields
intact. -/
theorem c7_completed_immutable (fuel : Nat) (env : Env) (st : AchievementData)
    (ad : AchievementDef) (g : AchGroup) (args : List Nat) (i : Nat)
    (hfind : findAchIdx st.achievements ad.achievement_id = some i)
    (hc : 0 < (getAch st i).completed) :
    (∀ r, achievement_update_objectives fuel env st ad g args = some r →
      r = (st, false, [])) ∧
    (0 < env.now → StoreInv st →
      ∀ r, achievement_update_objective fuel env st g args = some r →
        ∀ a ∈ st.achievements, 0 < a.completed → a ∈ r.1.achievements) := by
  constructor
  · intro r h
    cases fuel with
    | zero => exact Option.noConfusion h
    | succ n =>
      simp only [achievement_update_objectives, engine, mkEngine,
        updObjectivesF] at h
      split at h
      · cases h
        rfl
      · split at h
        · rename_i hfound
          rw [hfind] at hfound
          cases hfound
        · rename_i j hfound
          rw [hfind, Option.some_inj] at hfound
          subst hfound
          split at h
          · cases h
            rfl
          · rename_i hcc
            exact absurd hc hcc
  · intro hnow hInv r h a ha hca
    exact (achievement_update_objective_rel h).frame hnow hInv a ha hca

/-- C7 (witness): the player holding the completed record of achievement 1
sees a further kill of monster 1002 as a failed no-op, and the record
survives the full event unchanged. -/
theorem c7_completed_immutable_witness :
    (∀ r, achievement_update_objectives 4 envMain stC1 adBattle .AG_BATTLE
        [1002] = some r → r = (stC1, false, [])) ∧
    (0 < envMain.now → StoreInv stC1 →
      ∀ r, achievement_update_objective 4 envMain stC1 .AG_BATTLE [1002] =
          some r →
        ∀ a ∈ stC1.achievements, 0 < a.completed → a ∈ r.1.achievements) :=
  c7_completed_immutable 4 envMain stC1 adBattle .AG_BATTLE [1002] 0
    (by decide) (by decide)

/-- C9 (counterexample): a claim on a known achievement with a completed,
unclaimed record is still denied when the inter-server request cannot be
issued: a fifth denial case beyond the four listed. -/
theorem c9_counterexample :
    dbFind envNoIntif.db 1 = some adBattle ∧
    findAchIdx stC1.achievements 1 = some 0 ∧
    (getAch stC1 0).completed = 7 ∧ (getAch stC1 0).rewarded = 0 ∧
    achievement_check_reward envNoIntif stC1 1 = .denied := by decide

/-- C9 (amended): the reward claim is forwarded to the inter server
exactly when the inter-server request can be issued and the player has a
completed, unclaimed record of a catalog achievement; in every other case
— including an issuable-request failure — it is denied, and an
already-claimed record is always denied. -/
theorem c9_reward_claim_amended (env : Env) (st : AchievementData)
    (id : Nat) :
    (achievement_check_reward env st id = .requested ↔
      (env.intifOk = true ∧ dbFind env.db id ≠ none ∧
        ∃ i, findAchIdx st.achievements id = some i ∧
          0 < (getAch st i).completed ∧ (getAch st i).rewarded = 0)) ∧
    (∀ i, findAchIdx st.achievements id = some i →
      0 < (getAch st i).rewarded →
      achievement_check_reward env st id = .denied) := by
  constructor
  · constructor
    · intro h
      unfold achievement_check_reward at h
      cases hdb : dbFind env.db id with
      | none =>
        simp only [hdb] at h
        exact RewardOutcome.noConfusion h
      | some adb =>
        simp only [hdb] at h
        cases hf : findAchIdx st.achievements id with
        | none =>
          simp only [hf] at h
          exact RewardOutcome.noConfusion h
        | some i =>
          simp only [hf] at h
          by_cases hden : 0 < (getAch st i).rewarded ∨
              (getAch st i).completed = 0
          · rw [if_pos hden] at h
            exact RewardOutcome.noConfusion h
          · rw [if_neg hden] at h
            by_cases hio : env.intifOk
            · refine ⟨hio, fun hx => Option.noConfusion hx, i, rfl, ?_, ?_⟩
              · rcases Nat.eq_zero_or_pos (getAch st i).completed with hz | hp
                · exact absurd (Or.inr hz) hden
                · exact hp
              · rcases Nat.eq_zero_or_pos (getAch st i).rewarded with hz | hp
                · exact hz
                · exact absurd (Or.inl hp) hden
            · rw [if_pos hio] at h
              exact RewardOutcome.noConfusion h
    · rintro ⟨hint, hdbne, i, hf, hcomp, hrew⟩
      unfold achievement_check_reward
      cases hdb : dbFind env.db id with
      | none => exact absurd hdb hdbne
      | some adb =>
        simp only [hf]
        rw [if_neg (by rintro (h1 | h2) <;> omega)]
        rw [if_neg (not_not_intro hint)]
  · intro i hf hrew
    unfold achievement_check_reward
    cases hdb : dbFind env.db id with
    | none => rfl
    | some adb =>
      simp only [hf]
      rw [if_pos (Or.inl hrew)]

/-- C10: the level and total-score progress queries answer from the
player's caches for every achievement id and never hit the -1 missing-
record path; -1 is returned exactly for the remaining, per-record query
types when the player has no record of the id. -/
theorem c10_progress_query (st : AchievementData) (id : Nat) :
    achievement_check_progress st id ACHIEVEINFO_LEVEL = (st.level : Int) ∧
    achievement_check_progress st id ACHIEVEINFO_SCORE =
      (st.total_score : Int) ∧
    (∀ type, achievement_check_progress st id type = -1 →
      type ≠ ACHIEVEINFO_LEVEL ∧ type ≠ ACHIEVEINFO_SCORE ∧
      findAchIdx st.achievements id = none) ∧
    (∀ type, type ≠ ACHIEVEINFO_LEVEL → type ≠ ACHIEVEINFO_SCORE →
      findAchIdx st.achievements id = none →
      achievement_check_progress st id type = -1) := by
  refine ⟨?_, ?_, ?_, ?_⟩
  · rw [achievement_check_progress, if_pos rfl]
  · rw [achievement_check_progress, if_neg (by decide), if_pos rfl]
  · intro type h
    unfold achievement_check_progress at h
    by_cases hL : type = ACHIEVEINFO_LEVEL
    · rw [if_pos hL] at h
      omega
    · rw [if_neg hL] at h
      by_cases hS : type = ACHIEVEINFO_SCORE
      · rw [if_pos hS] at h
        omega
      · rw [if_neg hS] at h
        refine ⟨hL, hS, ?_⟩
        cases hf : findAchIdx st.achievements id with
        | none => rfl
        | some i =>
          simp only [hf] at h
          split at h
          · omega
          · split at h
            · split at h <;> omega
            · split at h
              · omega
              · split at h
                · split at h <;> omega
                · omega
  · intro type hL hS hf
    unfold achievement_check_progress
    rw [if_neg hL, if_neg hS]
    simp only [hf]

/-- C5: for a battle or taming event on a definition with nonempty
targets: every slot whose configured monster matches the event and is
below its requirement is incremented by exactly one and no other slot
changes; if no slot changed the per-entry update aborts with no state
change; an existing incomplete record with a change completes exactly when
every slot meets its requirement, the new counts being persisted
otherwise; and three kills of monster 1002 create achievement 1's record
on the first event (count 1) and complete it on the third (count 3,
timestamp stamped, record in the completed partition). -/
theorem c5_battle_category (env : Env) (ad : AchievementDef) (g : AchGroup)
    (args : List Nat) (adb : AchievementDef)
    (hg : g = .AG_BATTLE ∨ g = .AG_TAMING) (hgr : ad.group = g)
    (hne : ad.targets.isEmpty = false)
    (hnodup : (ad.targets.map Prod.fst).Nodup)
    (hdb : dbFind env.db ad.achievement_id = some adb) :
    (∀ cur j t, (j, t) ∈ ad.targets → j < cur.length →
      cntGet (battleCounts (cntGet args 0) ad.targets cur).1 j =
        if t.mob = cntGet args 0 ∧ cntGet cur j < t.count
        then cntGet cur j + 1 else cntGet cur j) ∧
    (∀ cur j, j ∉ ad.targets.map Prod.fst →
      cntGet (battleCounts (cntGet args 0) ad.targets cur).1 j =
        cntGet cur j) ∧
    (∀ fuel st r,
      (battleCounts (cntGet args 0) ad.targets
        (List.replicate MAX_ACHIEVEMENT_OBJECTIVES 0)).2 = false →
      (∀ i, findAchIdx st.achievements ad.achievement_id = some i →
        (battleCounts (cntGet args 0) ad.targets (getAch st i).count).2 =
          false) →
      achievement_update_objectives fuel env st ad g args = some r →
      r = (st, false, [])) ∧
    (∀ fuel st i a r, 0 < env.now → StoreInv st →
      findAchIdx st.achievements ad.achievement_id = some i →
      getAch st i = a → a.completed = 0 →
      (battleCounts (cntGet args 0) ad.targets a.count).2 = true →
      achievement_update_objectives fuel env st ad g args = some r →
      r.2.1 = true ∧ ∃ a', lookupRec r.1 ad.achievement_id = some a' ∧
        (0 < a'.completed ↔
          targetsMet ad.targets
            (battleCounts (cntGet args 0) ad.targets a.count).1 = true) ∧
        (targetsMet ad.targets
            (battleCounts (cntGet args 0) ad.targets a.count).1 = false →
          a' = { a with
            count := (battleCounts (cntGet args 0) ad.targets a.count).1 })) ∧
    ((battleEvent initPlayer).map (fun r => lookupRec r.1 1) =
      some (some ⟨1, [1, 0, 0, 0, 0, 0, 0, 0, 0, 0], 0, 0, 10⟩) ∧
     kill2.map (fun s => lookupRec s 1) =
      some (some ⟨1, [2, 0, 0, 0, 0, 0, 0, 0, 0, 0], 0, 0, 10⟩) ∧
     kills3.map (fun s => (lookupRec s 1, s.incompleteCount)) =
      some (some ⟨1, [3, 0, 0, 0, 0, 0, 0, 0, 0, 0], 7, 0, 10⟩, 0)) := by
  refine ⟨?_, ?_, ?_, ?_, by decide, by decide, by decide⟩
  · intro cur j t hmem hlen
    exact battleCounts_at_key (cntGet args 0) cur hnodup hmem hlen
  · intro cur j hj
    exact battleCounts_frame (cntGet args 0) ad.targets cur j hj
  · intro fuel st r hfresh hstored h
    exact upd_objectives_step_none (objStep_battle_nochange hg hfresh)
      (fun i hi => objStep_battle_nochange hg (hstored i hi)) h
  · intro fuel st i a r hnow hInv hfind hai hz hch h
    obtain ⟨hb, a', hla, hiff, hpers⟩ :=
      upd_objectives_existing hdb hnow hInv hfind hai hz hgr.symm
        (objStep_battle hg hne hch) h
    exact ⟨hb, a', hla, hiff, hpers⟩

/-- C5 (witness): the battle theorem at the concrete catalog entry of
achievement 1 and the 3-kill scenario. -/
theorem c5_battle_category_witness :
    adBattle.group = .AG_BATTLE ∧ adBattle.targets.isEmpty = false ∧
    ((battleEvent initPlayer).map (fun r => lookupRec r.1 1) =
      some (some ⟨1, [1, 0, 0, 0, 0, 0, 0, 0, 0, 0], 0, 0, 10⟩) ∧
     kill2.map (fun s => lookupRec s 1) =
      some (some ⟨1, [2, 0, 0, 0, 0, 0, 0, 0, 0, 0], 0, 0, 10⟩) ∧
     kills3.map (fun s => (lookupRec s 1, s.incompleteCount)) =
      some (some ⟨1, [3, 0, 0, 0, 0, 0, 0, 0, 0, 0], 7, 0, 10⟩, 0)) :=
  ⟨by decide, by decide,
    (c5_battle_category envMain adBattle .AG_BATTLE [1002] adBattle
      (Or.inl rfl) (by decide) (by decide) (by decide)
      (by decide)).2.2.2.2⟩

/-- C8: for a guarded zeny-spend event the event value is accumulated on
every slot below its requirement and then the guard is evaluated: a
failing guard makes the per-entry update return failure with the stored
record untouched (the accumulated counts are discarded), while a passing
guard persists the accumulated counts and completes the record exactly
when every slot meets or exceeds its requirement. -/
theorem c8_spend_guard (env : Env) (ad : AchievementDef) (args : List Nat)
    (adb : AchievementDef) (hgr : ad.group = .AG_SPEND_ZENY)
    (hne : ad.targets.isEmpty = false) (hcond : ad.hasCondition = true)
    (hdb : dbFind env.db ad.achievement_id = some adb) :
    (env.condResult ad.achievement_id = false →
      ∀ fuel st r,
        achievement_update_objectives fuel env st ad .AG_SPEND_ZENY args =
          some r →
        r = (st, false, [])) ∧
    (env.condResult ad.achievement_id = true →
      ∀ fuel st i a r, 0 < env.now → StoreInv st →
        findAchIdx st.achievements ad.achievement_id = some i →
        getAch st i = a → a.completed = 0 →
        achievement_update_objectives fuel env st ad .AG_SPEND_ZENY args =
          some r →
        r.2.1 = true ∧ ∃ a', lookupRec r.1 ad.achievement_id = some a' ∧
          (0 < a'.completed ↔
            targetsMet ad.targets (spendCounts args ad.targets a.count) =
              true) ∧
          (targetsMet ad.targets (spendCounts args ad.targets a.count) =
              false →
            a' = { a with count := spendCounts args ad.targets a.count })) := by
  constructor
  · intro hok fuel st r h
    exact upd_objectives_step_none (objStep_spend_guard_false hok)
      (fun i _ => objStep_spend_guard_false hok) h
  · intro hok fuel st i a r hnow hInv hfind hai hz h
    obtain ⟨hb, a', hla, hiff, hpers⟩ :=
      upd_objectives_existing hdb hnow hInv hfind hai hz hgr.symm
        (objStep_spend hne hcond hok) h
    exact ⟨hb, a', hla, hiff, hpers⟩

/-- C8 (witness): spending 350 zeny on the guarded achievement 2 with 200
already accumulated persists 550 and completes the record (the fill on
completion pins the slot at its 500 requirement). -/
theorem c8_spend_guard_witness :
    envMain.condResult adSpend.achievement_id = true ∧
    (true = true ∧ ∃ a', lookupRec
        (⟨[⟨2, [500, 0, 0, 0, 0, 0, 0, 0, 0, 0], 7, 0, 20⟩], 0, 20, 0,
          true⟩ : AchievementData) adSpend.achievement_id = some a' ∧
      (0 < a'.completed ↔ targetsMet adSpend.targets
        (spendCounts [350] adSpend.targets
          [200, 0, 0, 0, 0, 0, 0, 0, 0, 0]) = true) ∧
      (targetsMet adSpend.targets
          (spendCounts [350] adSpend.targets
            [200, 0, 0, 0, 0, 0, 0, 0, 0, 0]) = false →
        a' = { (⟨2, [200, 0, 0, 0, 0, 0, 0, 0, 0, 0], 0, 0, 20⟩ :
            Achievement) with
          count := spendCounts [350] adSpend.targets
            [200, 0, 0, 0, 0, 0, 0, 0, 0, 0] })) :=
  ⟨by decide,
    (c8_spend_guard envMain adSpend [350] adSpend (by decide) (by decide)
        (by decide) (by decide)).2 (by decide) 4 stSpend 0
      ⟨2, [200, 0, 0, 0, 0, 0, 0, 0, 0, 0], 0, 0, 20⟩
      (⟨[⟨2, [500, 0, 0, 0, 0, 0, 0, 0, 0, 0], 7, 0, 20⟩], 0, 20, 0, true⟩,
        true, ([] : Trace))
      (by decide) (by decide) (by decide) (by decide) (by decide)
      (by decide)⟩
